import Mathlib

/-!
Verification of the vector-clock multi-channel changes feed
(`VectorMultiChangesFeed`, `vectorChangesFeed`, `appendVectorUserFeed`,
`getChangesClock`) as a shallow embedding.  Machine integers (uint64
sequences, uint16 vbucket numbers) are modelled as `Nat`; the Go code never
performs arithmetic that can overflow on these values (it only compares them
and copies them), so no modular reduction is required.  Go channels are
modelled by lists of the values sent on them, pointers to clocks by explicit
values plus, for the shared per-flight triggered-by clock, a piece of merge
state keyed by the flight identity.
-/

namespace SyncGateway

/-- Modelled from the spec: a vector clock (`base.SequenceClock`), a sparse
mapping from vbucket number to sequence (absent means 0), together with the
opaque `hashedValue` slot filled by the hasher.  Operations `get`, `setMax`,
`copy` (identity on values) follow the spec's data-model section. -/
structure VectorClock where
  entries : List (Nat × Nat)
  hashedValue : String
deriving DecidableEq, Repr

/-- Modelled from the spec: `get(vb)` — the sequence stored for a vbucket,
0 when absent. -/
def VectorClock.get (c : VectorClock) (vb : Nat) : Nat :=
  match c.entries.lookup vb with
  | some s => s
  | none => 0

/-- Modelled from the spec: `setMax(vb, seq)` — monotonic-maximum update of
one vbucket entry. -/
def VectorClock.setMax (c : VectorClock) (vb seq : Nat) : VectorClock :=
  if c.get vb < seq then
    { c with entries := (vb, seq) :: c.entries.filter (fun p => p.1 != vb) }
  else c

/-- The zero clock (`base.NewSequenceClockImpl()`): empty map, empty hash. -/
def VectorClock.zero : VectorClock := ⟨[], ""⟩

/-- A clock carrying only a hashed value (`&base.SequenceClockImpl{}` followed
by `SetHashedValue`), as built by the merger for emitted live entries. -/
def VectorClock.hashOnly (h : String) : VectorClock := ⟨[], h⟩

/-- The ordering key of an entry (`SequenceID` in Go).  `clock` and
`triggeredByClock` are pointers in Go; a nil pointer is `none` here.  The
sequence type is always `ClockSequenceType` in this code path and is omitted. -/
structure SequenceID where
  seq : Nat
  vbNo : Nat
  clock : Option VectorClock
  triggeredBy : Nat
  triggeredByVbNo : Nat
  triggeredByClock : Option VectorClock
deriving DecidableEq, Repr

/-- The effective position used for ordering: the grant sequence for a
backfill entry, the entry's own sequence for a live one. -/
def SequenceID.effSeq (s : SequenceID) : Nat :=
  if s.triggeredBy = 0 then s.seq else s.triggeredBy

/-- 1 for a live entry, 0 for a backfill entry: at an equal effective
position a backfill flight precedes live entries. -/
def SequenceID.liveFlag (s : SequenceID) : Nat :=
  if s.triggeredBy = 0 then 1 else 0

/-- Modelled from the spec: the strict ordering predicate `A.Before(B)` on
`SequenceID` (its Go implementation lives outside this repository slice).
Live entries compare by sequence first and vbucket second; backfill entries
sort by `(triggeredBy, vbNo, seq)`; a backfill flight precedes live entries
issued at or after the grant position. -/
def SequenceID.Before (a b : SequenceID) : Bool :=
  decide (a.effSeq < b.effSeq ∨ (a.effSeq = b.effSeq ∧
    (a.liveFlag < b.liveFlag ∨ (a.liveFlag = b.liveFlag ∧
      (a.vbNo < b.vbNo ∨ (a.vbNo = b.vbNo ∧ a.seq < b.seq))))))

/-- Modelled from the spec: the sentinel `MaxSequenceID` seeding the merger's
minimum scan; its sequence is the largest uint64 value. -/
def maxSequenceID : SequenceID :=
  { seq := 18446744073709551615, vbNo := 0, clock := none,
    triggeredBy := 0, triggeredByVbNo := 0, triggeredByClock := none }

/-- Equality of the identity-relevant fields of two `SequenceID`s: everything
except the (mutable, merger-stamped) cumulative `clock` slot. -/
def SequenceID.sameID (a b : SequenceID) : Prop :=
  a.seq = b.seq ∧ a.vbNo = b.vbNo ∧ a.triggeredBy = b.triggeredBy ∧
    a.triggeredByVbNo = b.triggeredByVbNo ∧ a.triggeredByClock = b.triggeredByClock

instance (a b : SequenceID) : Decidable (a.sameID b) := by
  unfold SequenceID.sameID; infer_instance

/-- A change notification (`ChangeEntry`).  Only the fields the merger and
the per-channel feed read or write are modelled; `Changes`, `Deleted` and the
attached document body never influence the verified control flow. -/
structure ChangeEntry where
  id : String
  seq : SequenceID
  removed : Option (Finset String)
  err : Option String
deriving DecidableEq

/-- Modelled from the spec: a per-channel log entry handed back by
`ChangeCache.GetChanges` — `{id, seq: u64, vbNo: u16, revs, flags}`; of the
flags only the removal marker is relevant (it decides the `Removed` set of
the resulting change entry). -/
structure LogEntry where
  docID : String
  sequence : Nat
  vbNo : Nat
  removalFlag : Bool
deriving DecidableEq, Repr

/-- Modelled from the spec: `makeChangeEntry(logEntry, seqID, channel)` —
builds the change entry for a log entry; a removal-flagged entry records the
channel it was removed from in its `removed` set. -/
def makeChangeEntry (logEntry : LogEntry) (seqID : SequenceID) (channel : String) :
    ChangeEntry :=
  { id := logEntry.docID, seq := seqID,
    removed := if logEntry.removalFlag then some {channel} else none,
    err := none }

/-- Modelled from the spec: `options.Since.VbucketSequenceBefore(vbNo, seq)` —
the cursor position `(since.vbNo, since.seq)` is strictly before position
`(vbNo, seq)` in the per-vbucket order a backfill pass walks (vbucket first,
sequence within the vbucket). -/
def SequenceID.vbucketSequenceBefore (s : SequenceID) (vb seq : Nat) : Bool :=
  decide (s.vbNo < vb ∨ (s.vbNo = vb ∧ s.seq < seq))

/-- The request options (`ChangesOptions`) restricted to the fields the
verified code paths read: the cursor and the limit (0 = unlimited).  `Wait`,
`Continuous`, `IncludeDocs`, `Conflicts` and the terminator drive code that
is either outside the one-shot slice modelled here or not expressible in a
deterministic embedding. -/
structure ChangesOptions where
  since : SequenceID
  limit : Nat
deriving DecidableEq, Repr

/-- The `SequenceID` given to a backfill entry by `vectorChangesFeed`:
position of the log entry plus the triggered-by fields copied from
`options.Since` (lines 332-339 of the source). -/
def backfillSeqID (options : ChangesOptions) (logEntry : LogEntry) : SequenceID :=
  { seq := logEntry.sequence, vbNo := logEntry.vbNo, clock := none,
    triggeredBy := options.since.triggeredBy,
    triggeredByVbNo := options.since.triggeredByVbNo,
    triggeredByClock := options.since.triggeredByClock }

/-- The plain `SequenceID` given to a live entry by `vectorChangesFeed`
(lines 359-363 of the source). -/
def liveSeqID (logEntry : LogEntry) : SequenceID :=
  { seq := logEntry.sequence, vbNo := logEntry.vbNo, clock := none,
    triggeredBy := 0, triggeredByVbNo := 0, triggeredByClock := none }

/-- The backfill pass of `vectorChangesFeed` (lines 322-352): walk the log,
emit as backfill every entry at or below the triggered-by frontier for its
vbucket that is strictly after the cursor position, and blank out (set to
`none`) every entry at or below the frontier whether or not it was emitted. -/
def backfillScan (channel : String) (options : ChangesOptions) (tbc : VectorClock) :
    List LogEntry → List ChangeEntry × List (Option LogEntry)
  | [] => ([], [])
  | logEntry :: rest =>
    let r := backfillScan channel options tbc rest
    let isBackfill : Bool := decide (logEntry.sequence ≤ tbc.get logEntry.vbNo)
    let isPending : Bool :=
      options.since.vbucketSequenceBefore logEntry.vbNo logEntry.sequence
    ((if isBackfill && isPending then
        [makeChangeEntry logEntry (backfillSeqID options logEntry) channel]
      else []) ++ r.1,
     (if isBackfill then none else some logEntry) :: r.2)

/-- The live pass of `vectorChangesFeed` (lines 355-372): emit the remaining
(non-blanked) log entries with plain sequence ids. -/
def livePass (channel : String) (log : List (Option LogEntry)) : List ChangeEntry :=
  log.filterMap (fun o => o.map (fun logEntry =>
    makeChangeEntry logEntry (liveSeqID logEntry) channel))

/-- The full list of entries `vectorChangesFeed` sends on its feed channel
for a given log (lines 310-373): an empty log yields an already-closed empty
feed; a non-null `TriggeredByClock` on the cursor requests a backfill pass
before the remaining entries are sent live. -/
def vectorChangesFeedEntries (channel : String) (options : ChangesOptions)
    (log : List LogEntry) : List ChangeEntry :=
  if log = [] then []
  else
    match options.since.triggeredByClock with
    | some tbc =>
      let r := backfillScan channel options tbc log
      r.1 ++ livePass channel r.2
    | none => livePass channel (log.map some)

/-- Mirror of `getChangesClock` (lines 411-417): the cursor clock of a
`SequenceID` is its triggered-by clock when that is non-nil, otherwise its
live clock. -/
def getChangesClock (sequence : SequenceID) : Option VectorClock :=
  match sequence.triggeredByClock with
  | some c => some c
  | none => sequence.clock

/-- Reading a sequence from a possibly-nil clock pointer; the verified call
sites only dereference non-nil clocks, so the `none` default is never
load-bearing. -/
def clockGet (c : Option VectorClock) (vb : Nat) : Nat :=
  (c.getD VectorClock.zero).get vb

/-- The cursor read `getChangesClock(options.Since).GetSequence(vb)` shared
by the backfill planner (line 117) and the user pseudo-feed (line 387). -/
def sinceSeqFor (s : SequenceID) (vb : Nat) : Nat :=
  clockGet (getChangesClock s) vb

/-- The planner's `backfillInProgress` test (lines 109-115): the incoming
cursor carries a triggered-by clock whose sequence for the grant vbucket
equals the grant sequence. -/
def backfillInProgress (since : SequenceID) (seqAddedAt vbAddedAt : Nat) : Bool :=
  match since.triggeredByClock with
  | some c => decide (c.get vbAddedAt = seqAddedAt)
  | none => false

/-- The planner's `backfillRequired` test (line 118). -/
def backfillRequired (since : SequenceID) (seqAddedAt vbAddedAt : Nat) : Bool :=
  decide (0 < seqAddedAt ∧ sinceSeqFor since vbAddedAt < seqAddedAt)

/-- Which of the three backfill cases the planner selects for one channel
(the if/else-if/else chain at lines 120-147). -/
inductive PlanCase where
  | fresh
  | resume
  | unchanged
deriving DecidableEq, Repr

def planChannelCase (since : SequenceID) (isNewChannel : Bool)
    (seqAddedAt vbAddedAt : Nat) : PlanCase :=
  if isNewChannel || (backfillRequired since seqAddedAt vbAddedAt
      && !backfillInProgress since seqAddedAt vbAddedAt) then .fresh
  else if backfillInProgress since seqAddedAt vbAddedAt then .resume
  else .unchanged

/-- The per-channel cursor (`chanOpts.Since`) handed to `vectorChangesFeed`
by the planner (lines 120-147).  `Copy()` is the identity on clock values. -/
def planChannelSince (since : SequenceID) (isNewChannel : Bool)
    (seqAddedAt vbAddedAt : Nat) : SequenceID :=
  match planChannelCase since isNewChannel seqAddedAt vbAddedAt with
  | .fresh =>
    { seq := 0, vbNo := 0, clock := some VectorClock.zero,
      triggeredBy := seqAddedAt, triggeredByVbNo := vbAddedAt,
      triggeredByClock := getChangesClock since }
  | .resume =>
    { seq := since.seq, vbNo := since.vbNo, clock := some VectorClock.zero,
      triggeredBy := seqAddedAt, triggeredByVbNo := vbAddedAt,
      triggeredByClock := since.triggeredByClock }
  | .unchanged => since

/-- State of the merge loop (lines 161-260): the per-feed queues of entries
not yet consumed (the current head of `feeds[i]` plays the role of
`current[i]`), the cumulative clock, and the hashed values already stamped
onto the shared triggered-by clock of each backfill flight.  The Go code
shares one clock instance per flight and writes the hash into it; following
the spec's design note, that shared slot is externalised here, keyed by
`(triggeredBy, triggeredByVbNo)`. -/
structure MergeState where
  feeds : List (List ChangeEntry)
  cc : VectorClock
  tbcHash : List ((Nat × Nat) × String)
deriving DecidableEq

/-- The flight identity of a backfill entry. -/
def flightKey (e : ChangeEntry) : Nat × Nat :=
  (e.seq.triggeredBy, e.seq.triggeredByVbNo)

/-- The hashed value currently carried by the shared triggered-by clock of a
flight (`GetHashedValue`); the empty string when never stamped. -/
def lookupFlight (m : List ((Nat × Nat) × String)) (k : Nat × Nat) : String :=
  (m.lookup k).getD ""

/-- A trace element at which the merger initialises the hashed value of the
shared triggered-by clock of flight `k`: a backfill emission of flight `k`
made while that clock's hashed value is still empty (lines 232-239). -/
def stampEvent (k : Nat × Nat) (t : MergeState × ChangeEntry × MergeState) : Bool :=
  decide (t.2.1.seq.triggeredBy ≠ 0 ∧ flightKey t.2.1 = k ∧
    lookupFlight t.1.tbcHash k = "")

/-- The merger's minimum scan (lines 177-188): walk the current heads,
keeping the first entry strictly `Before` everything seen so far, starting
from the `maxSequenceID` sentinel.  The index of the winning head is kept
because the coalescing loop compares `cur != minEntry` by identity. -/
def scanMin : List (Option ChangeEntry) → Nat → SequenceID →
    Option (Nat × ChangeEntry) → Option (Nat × ChangeEntry)
  | [], _, _, acc => acc
  | none :: rest, i, minSeq, acc => scanMin rest (i + 1) minSeq acc
  | some cur :: rest, i, minSeq, acc =>
    if cur.seq.Before minSeq then scanMin rest (i + 1) cur.seq (some (i, cur))
    else scanMin rest (i + 1) minSeq acc

def findMin (heads : List (Option ChangeEntry)) : Option (Nat × ChangeEntry) :=
  scanMin heads 0 maxSequenceID none

/-- One feed after the coalescing loop: its head is consumed exactly when it
carries the minimum sequence (lines 195-198). -/
def popIf (minSeq : SequenceID) (feed : List ChangeEntry) : List ChangeEntry :=
  match feed with
  | [] => []
  | cur :: tl => if cur.seq = minSeq then tl else feed

/-- The coalescing loop (lines 195-208): clear every current head whose
`SequenceID` equals the minimum, and union the `Removed` set of each such
head other than the minimum entry itself (identified by its index) into the
minimum entry's `Removed` set. -/
def coalesceGo (i minIdx : Nat) (minSeq : SequenceID) (acc : ChangeEntry) :
    List (List ChangeEntry) → ChangeEntry × List (List ChangeEntry)
  | [] => (acc, [])
  | feed :: rest =>
    match feed with
    | cur :: tl =>
      if cur.seq = minSeq then
        let acc' :=
          if i ≠ minIdx ∧ cur.removed ≠ none then
            { acc with removed :=
                match acc.removed with
                | none => cur.removed
                | some r => some (r ∪ cur.removed.getD ∅) }
          else acc
        let r := coalesceGo (i + 1) minIdx minSeq acc' rest
        (r.1, tl :: r.2)
      else
        let r := coalesceGo (i + 1) minIdx minSeq acc rest
        (r.1, feed :: r.2)
    | [] =>
      let r := coalesceGo (i + 1) minIdx minSeq acc rest
      (r.1, [] :: r.2)

/-- One iteration of the merge loop body (lines 165-248): pull the heads,
find the minimum entry, coalesce equal heads into it, stamp the clock
(lines 215-241) and emit.  Returns `none` when no head beats the sentinel,
which is how the loop exits.  The hasher (`db.SequenceHasher.GetHash`) is an
external deterministic function and is passed in; its error path (which only
skips the stamp) is not modelled. -/
def mergeStep (hash : VectorClock → String) (st : MergeState) :
    Option (ChangeEntry × MergeState) :=
  match findMin (st.feeds.map List.head?) with
  | none => none
  | some (minIdx, minEntry) =>
    let co := coalesceGo 0 minIdx minEntry.seq minEntry st.feeds
    let e := co.1
    if e.seq.triggeredBy = 0 then
      let cc' := st.cc.setMax e.seq.vbNo e.seq.seq
      some ({ e with seq := { e.seq with clock := some (VectorClock.hashOnly (hash cc')) } },
        { feeds := co.2, cc := cc', tbcHash := st.tbcHash })
    else
      if lookupFlight st.tbcHash (flightKey e) = "" then
        let cc' := st.cc.setMax e.seq.triggeredByVbNo e.seq.triggeredBy
        some (e,
          { feeds := co.2, cc := cc', tbcHash := (flightKey e, hash cc') :: st.tbcHash })
      else
        some (e, { feeds := co.2, cc := st.cc, tbcHash := st.tbcHash })

/-- The merge loop as a trace of `(state before, emitted entry, state after)`
triples.  `limit` is `options.Limit`: 0 means unlimited, otherwise the loop
decrements after each emission and stops on zero (lines 251-257).  `fuel`
bounds the number of iterations; every property proved below is universally
quantified over it. -/
def mergeTrace (hash : VectorClock → String) :
    Nat → Nat → MergeState → List (MergeState × ChangeEntry × MergeState)
  | 0, _, _ => []
  | fuel + 1, limit, st =>
    match mergeStep hash st with
    | none => []
    | some (e, st') =>
      if limit = 1 then [(st, e, st')]
      else (st, e, st') :: mergeTrace hash fuel (limit - 1) st'

/-- The entries the merge loop writes to the output channel. -/
def mergeOutput (hash : VectorClock → String) (fuel limit : Nat) (st : MergeState) :
    List ChangeEntry :=
  (mergeTrace hash fuel limit st).map (fun t => t.2.1)

/-- Total number of entries still queued in the feeds; used as fuel. -/
def totalLen (st : MergeState) : Nat :=
  (st.feeds.map List.length).sum

def runMerge (hash : VectorClock → String) (limit : Nat) (st : MergeState) :
    List ChangeEntry :=
  mergeOutput hash (totalLen st) limit st

/-- The authenticated principal's fields read by this code path. -/
structure UserInfo where
  name : String
  sequence : Nat
deriving DecidableEq, Repr

/-- Modelled from the spec: the well-known name used for guest principals. -/
def guestUsername : String := "GUEST"

/-- The synthetic user entry of `appendVectorUserFeed` (lines 380-399). -/
def userChangeEntry (u : UserInfo) (userVbNo : Nat) : ChangeEntry :=
  { id := "_user/" ++ (if u.name = "" then guestUsername else u.name),
    seq := { seq := u.sequence, vbNo := userVbNo, clock := none,
             triggeredBy := 0, triggeredByVbNo := 0, triggeredByClock := none },
    removed := none, err := none }

/-- Mirror of `appendVectorUserFeed` (lines 377-409): append a one-entry
pseudo-feed when the principal's own grant sequence is positive and exceeds
the cursor's sequence for the principal's vbucket. -/
def appendVectorUserFeed (feeds : List (List ChangeEntry)) (options : ChangesOptions)
    (u : UserInfo) (userVbNo : Nat) : List (List ChangeEntry) :=
  if 0 < u.sequence ∧ sinceSeqFor options.since userVbNo < u.sequence then
    feeds ++ [[userChangeEntry u userVbNo]]
  else feeds

/-- A channel grant from `channelsSince` (`channels.VbSequence`): a missing
vbucket number marks a grant recorded on the principal document itself. -/
structure VbSequence where
  vbNo : Option Nat
  sequence : Nat
deriving DecidableEq, Repr

/-- The per-channel feed factory `vectorChangesFeed` viewed synchronously
(lines 300-308 plus the produced entries): an error from
`ChangeCache.GetChanges` is returned to the caller before any goroutine or
feed channel is created. -/
def vectorChangesFeedE (getChanges : String → ChangesOptions → Except String (List LogEntry))
    (channel : String) (options : ChangesOptions) : Except String (List ChangeEntry) :=
  match getChanges channel options with
  | .error e => .error e
  | .ok log => .ok (vectorChangesFeedEntries channel options log)

/-- The feed-construction loop of `VectorMultiChangesFeed` (lines 85-154):
plan each channel's cursor and open its feed; the first error aborts the
whole goroutine (`return` at line 151), so no further feed is opened and no
entry is ever merged. -/
def buildFeeds (getChanges : String → ChangesOptions → Except String (List LogEntry))
    (options : ChangesOptions) (addedChannels : List String) (userVbNo : Nat) :
    List (String × VbSequence) → Except String (List (List ChangeEntry))
  | [] => .ok []
  | (name, vbSeqAddedAt) :: rest =>
    let seqAddedAt := vbSeqAddedAt.sequence
    let vbAddedAt := vbSeqAddedAt.vbNo.getD userVbNo
    let chanSince :=
      planChannelSince options.since (addedChannels.contains name) seqAddedAt vbAddedAt
    match vectorChangesFeedE getChanges name { options with since := chanSince } with
    | .error e => .error e
    | .ok feed =>
      match buildFeeds getChanges options addedChannels userVbNo rest with
      | .error e => .error e
      | .ok feeds => .ok (feed :: feeds)

/-- One-shot run of the entry point `VectorMultiChangesFeed` (neither `Wait`
nor `Continuous`): the pair of the error the caller receives synchronously
(line 295 — always `none`) and the entries the goroutine writes to the
output channel before it closes.  The cumulative clock is seeded from
`getChangesClock(options.Since).Copy()` (line 57).  When building any feed
fails the goroutine returns before the merge loop, so the stream closes with
no entries. -/
def vectorMultiChangesFeed (hash : VectorClock → String)
    (getChanges : String → ChangesOptions → Except String (List LogEntry))
    (user : Option UserInfo) (userVbNo : Nat)
    (channelsSince : List (String × VbSequence)) (addedChannels : List String)
    (options : ChangesOptions) : Option String × List ChangeEntry :=
  (none,
    match buildFeeds getChanges options addedChannels userVbNo channelsSince with
    | .error _ => []
    | .ok feeds =>
      let feeds2 :=
        match user with
        | some u => appendVectorUserFeed feeds options u userVbNo
        | none => feeds
      runMerge hash options.limit
        { feeds := feeds2,
          cc := (getChangesClock options.since).getD VectorClock.zero,
          tbcHash := [] })

/-- A constant hasher used by the concrete evaluation fixtures below. -/
def witHash : VectorClock → String := fun _ => "h"

/-- Fixture: a triggered-by clock mapping vbucket 2 to sequence 8. -/
def witTbc : VectorClock := ⟨[(2, 8)], ""⟩

/-- Fixture: a backfill-pass cursor triggered by grant 10 on vbucket 2. -/
def witSince : SequenceID :=
  { seq := 0, vbNo := 0, clock := some VectorClock.zero,
    triggeredBy := 10, triggeredByVbNo := 2, triggeredByClock := some witTbc }

/-- Fixture: options carrying `witSince` and no limit. -/
def witOptions : ChangesOptions := { since := witSince, limit := 0 }

/-- Fixture: a log entry below the frontier of `witTbc`. -/
def witLogP : LogEntry := { docID := "p", sequence := 6, vbNo := 2, removalFlag := false }

/-- Fixture: a log entry above the frontier of `witTbc`. -/
def witLogR : LogEntry := { docID := "r", sequence := 12, vbNo := 2, removalFlag := false }

/-- Fixture: a live change entry at `(vb 1, seq 5)`. -/
def witLive1 : ChangeEntry :=
  { id := "x",
    seq := { seq := 5, vbNo := 1, clock := none, triggeredBy := 0,
             triggeredByVbNo := 0, triggeredByClock := none },
    removed := none, err := none }

/-- Fixture: a live change entry at `(vb 2, seq 3)`. -/
def witLive2 : ChangeEntry :=
  { id := "y",
    seq := { seq := 3, vbNo := 2, clock := none, triggeredBy := 0,
             triggeredByVbNo := 0, triggeredByClock := none },
    removed := none, err := none }

/-- Fixture: a backfill change entry of flight `(10, 2)` at `(vb 2, seq 6)`. -/
def witBack1 : ChangeEntry :=
  { id := "p",
    seq := { seq := 6, vbNo := 2, clock := none, triggeredBy := 10,
             triggeredByVbNo := 2, triggeredByClock := some witTbc },
    removed := none, err := none }

/-- Fixture: a merge state holding two singleton live feeds. -/
def witStateLive : MergeState :=
  { feeds := [[witLive1], [witLive2]], cc := VectorClock.zero, tbcHash := [] }

/-- Fixture: a merge state holding one backfill feed. -/
def witStateBack : MergeState :=
  { feeds := [[witBack1]], cc := VectorClock.zero, tbcHash := [] }

/-- Fixture: an entry whose sequence coincides with `witLive1` but which
removes the document from channel "B". -/
def witLive1B : ChangeEntry :=
  { id := "x",
    seq := { seq := 5, vbNo := 1, clock := none, triggeredBy := 0,
             triggeredByVbNo := 0, triggeredByClock := none },
    removed := some {"B"}, err := none }

/-- Fixture: a merge state with two heads at the same sequence. -/
def witStateDup : MergeState :=
  { feeds := [[witLive1], [witLive1B]], cc := VectorClock.zero, tbcHash := [] }

/-- Fixture: a cursor with a backfill in progress for another channel, whose
live clock and triggered-by clock disagree on vbucket 1. -/
def cexSince : SequenceID :=
  { seq := 5, vbNo := 1, clock := some ⟨[(1, 4)], ""⟩,
    triggeredBy := 7, triggeredByVbNo := 3, triggeredByClock := some ⟨[(1, 9)], ""⟩ }

/-- Fixture: the cursor the claim says a fresh backfill should receive at
`cexSince` for grant `(12, vb 1)` — its triggered-by clock a copy of
`options.since`'s `clock` field. -/
def cexClaimedCursor : SequenceID :=
  { seq := 0, vbNo := 0, clock := some VectorClock.zero,
    triggeredBy := 12, triggeredByVbNo := 1, triggeredByClock := some ⟨[(1, 4)], ""⟩ }

/-- Fixture: a `GetChanges` stub failing on channel "A". -/
def cexGetChanges : String → ChangesOptions → Except String (List LogEntry) :=
  fun channel _ => if channel = "A" then .error "boom" else .ok []

/-- Fixture: an empty-cursor options value. -/
def witOptionsEmpty : ChangesOptions :=
  { since := { seq := 0, vbNo := 0, clock := some VectorClock.zero, triggeredBy := 0,
               triggeredByVbNo := 0, triggeredByClock := none },
    limit := 0 }

theorem SequenceID.before_iff (a b : SequenceID) :
    a.Before b = true ↔
      (a.effSeq < b.effSeq ∨ (a.effSeq = b.effSeq ∧
        (a.liveFlag < b.liveFlag ∨ (a.liveFlag = b.liveFlag ∧
          (a.vbNo < b.vbNo ∨ (a.vbNo = b.vbNo ∧ a.seq < b.seq)))))) := by
  simp [SequenceID.Before]

theorem SequenceID.before_irrefl (a : SequenceID) : a.Before a = false := by
  simp [SequenceID.Before]

theorem SequenceID.before_trans {a b c : SequenceID}
    (h1 : a.Before b = true) (h2 : b.Before c = true) : a.Before c = true := by
  rw [SequenceID.before_iff] at h1 h2 ⊢
  omega

theorem SequenceID.before_asymm {a b : SequenceID}
    (h : a.Before b = true) : b.Before a = false := by
  rw [SequenceID.before_iff] at h
  rw [Bool.eq_false_iff]
  intro hc
  rw [SequenceID.before_iff] at hc
  omega

/-- If neither sequence is `Before` the other then they agree on all the
fields the order inspects. -/
theorem SequenceID.before_total {a b : SequenceID}
    (h1 : a.Before b = false) (h2 : b.Before a = false) :
    a.effSeq = b.effSeq ∧ a.liveFlag = b.liveFlag ∧ a.vbNo = b.vbNo ∧ a.seq = b.seq := by
  rw [Bool.eq_false_iff] at h1 h2
  rw [ne_eq, SequenceID.before_iff] at h1 h2
  omega

theorem SequenceID.sameID_symm {a b : SequenceID} (h : a.sameID b) : b.sameID a := by
  obtain ⟨h1, h2, h3, h4, h5⟩ := h
  exact ⟨h1.symm, h2.symm, h3.symm, h4.symm, h5.symm⟩

theorem SequenceID.sameID_before_left {a b : SequenceID} (h : a.sameID b)
    (x : SequenceID) : a.Before x = b.Before x := by
  obtain ⟨h1, h2, h3, _, _⟩ := h
  simp only [SequenceID.Before, SequenceID.effSeq, SequenceID.liveFlag, h1, h2, h3]

theorem SequenceID.sameID_before_right {a b : SequenceID} (h : a.sameID b)
    (x : SequenceID) : x.Before a = x.Before b := by
  obtain ⟨h1, h2, h3, _, _⟩ := h
  simp only [SequenceID.Before, SequenceID.effSeq, SequenceID.liveFlag, h1, h2, h3]

theorem SequenceID.sameID_not_before {a b : SequenceID} (h : a.sameID b) :
    a.Before b = false :=
  (SequenceID.sameID_before_left h b).trans (SequenceID.before_irrefl b)

/-- Correctness of the minimum scan: a `none` result means no head beats the
running minimum (and the accumulator was empty); a `some (m, c)` result is a
head at index `m` (or the incoming accumulator) that no head is strictly
`Before`, and that improves on the starting minimum unless it is the
accumulator itself. -/
theorem scanMin_spec (hs : List (Option ChangeEntry)) :
    ∀ (i : Nat) (ms : SequenceID) (acc : Option (Nat × ChangeEntry)),
    (∀ j c, acc = some (j, c) → c.seq = ms) →
    (scanMin hs i ms acc = none →
       acc = none ∧ ∀ x ∈ hs, ∀ h, x = some h → h.seq.Before ms = false)
    ∧ (∀ m c, scanMin hs i ms acc = some (m, c) →
       (∀ x ∈ hs, ∀ h, x = some h → h.seq.Before c.seq = false)
       ∧ (acc = some (m, c) ∨ (i ≤ m ∧ hs[m - i]? = some (some c)))
       ∧ (c.seq = ms ∨ c.seq.Before ms = true)) := by
  induction hs with
  | nil =>
    intro i ms acc hacc
    refine ⟨fun h => ⟨by simpa [scanMin] using h, by simp⟩, fun m c h => ?_⟩
    simp only [scanMin] at h
    exact ⟨by simp, Or.inl h, Or.inl (hacc m c h)⟩
  | cons x rest ih =>
    intro i ms acc hacc
    match x with
    | none =>
      have hrec := ih (i + 1) ms acc hacc
      constructor
      · intro h
        simp only [scanMin] at h
        obtain ⟨h1, h2⟩ := hrec.1 h
        refine ⟨h1, fun y hy hy2 hy3 => ?_⟩
        rcases List.mem_cons.mp hy with hy | hy
        · exact absurd (hy ▸ hy3) (by simp)
        · exact h2 y hy hy2 hy3
      · intro m c h
        simp only [scanMin] at h
        obtain ⟨h1, h2, h3⟩ := hrec.2 m c h
        refine ⟨fun y hy hy2 hy3 => ?_, ?_, h3⟩
        · rcases List.mem_cons.mp hy with hy | hy
          · exact absurd (hy ▸ hy3) (by simp)
          · exact h1 y hy hy2 hy3
        · rcases h2 with h2 | ⟨h2a, h2b⟩
          · exact Or.inl h2
          · refine Or.inr ⟨by omega, ?_⟩
            have : m - i = (m - (i + 1)) + 1 := by omega
            rw [this]
            simpa using h2b
    | some cur =>
      by_cases hb : cur.seq.Before ms = true
      · have hrec := ih (i + 1) cur.seq (some (i, cur))
          (by intro j c h; cases h; rfl)
        constructor
        · intro h
          simp only [scanMin, hb, if_pos] at h
          exact absurd (hrec.1 h).1 (by simp)
        · intro m c h
          simp only [scanMin, hb, if_pos] at h
          obtain ⟨h1, h2, h3⟩ := hrec.2 m c h
          have hcur : cur.seq.Before c.seq = false := by
            rcases h3 with h3 | h3
            · rw [h3]; exact SequenceID.before_irrefl _
            · exact SequenceID.before_asymm h3
          refine ⟨fun y hy hy2 hy3 => ?_, ?_, ?_⟩
          · rcases List.mem_cons.mp hy with hy | hy
            · cases hy ▸ hy3; exact hcur
            · exact h1 y hy hy2 hy3
          · rcases h2 with h2 | ⟨h2a, h2b⟩
            · obtain ⟨hm, hc⟩ := Prod.mk.injEq .. ▸ Option.some.injEq _ _ ▸ h2
              refine Or.inr ⟨by omega, ?_⟩
              subst hm
              simp [hc]
            · refine Or.inr ⟨by omega, ?_⟩
              have : m - i = (m - (i + 1)) + 1 := by omega
              rw [this]
              simpa using h2b
          · rcases h3 with h3 | h3
            · exact Or.inr (h3 ▸ hb)
            · exact Or.inr (SequenceID.before_trans h3 hb)
      · have hb' : cur.seq.Before ms = false := by
          cases hx : cur.seq.Before ms
          · rfl
          · exact absurd hx hb
        have hrec := ih (i + 1) ms acc hacc
        constructor
        · intro h
          simp only [scanMin, hb', Bool.false_eq_true, if_neg, if_false] at h
          obtain ⟨h1, h2⟩ := hrec.1 h
          refine ⟨h1, fun y hy hy2 hy3 => ?_⟩
          rcases List.mem_cons.mp hy with hy | hy
          · cases hy ▸ hy3; exact hb'
          · exact h2 y hy hy2 hy3
        · intro m c h
          simp only [scanMin, hb', Bool.false_eq_true, if_neg, if_false] at h
          obtain ⟨h1, h2, h3⟩ := hrec.2 m c h
          have hcur : cur.seq.Before c.seq = false := by
            rcases h3 with h3 | h3
            · rw [h3]; exact hb'
            · cases hx : cur.seq.Before c.seq
              · rfl
              · exact absurd (SequenceID.before_trans hx h3) (by simp [hb'])
          refine ⟨fun y hy hy2 hy3 => ?_, ?_, h3⟩
          · rcases List.mem_cons.mp hy with hy | hy
            · cases hy ▸ hy3; exact hcur
            · exact h1 y hy hy2 hy3
          · rcases h2 with h2 | ⟨h2a, h2b⟩
            · exact Or.inl h2
            · refine Or.inr ⟨by omega, ?_⟩
              have : m - i = (m - (i + 1)) + 1 := by omega
              rw [this]
              simpa using h2b

/-- No current head is strictly `Before` the entry the scan selects. -/
theorem findMin_min {heads : List (Option ChangeEntry)} {m : Nat} {c : ChangeEntry}
    (h : findMin heads = some (m, c)) :
    ∀ x ∈ heads, ∀ e, x = some e → e.seq.Before c.seq = false :=
  ((scanMin_spec heads 0 maxSequenceID none (by simp)).2 m c h).1

/-- The selected minimum is one of the current heads, at its index. -/
theorem findMin_mem {heads : List (Option ChangeEntry)} {m : Nat} {c : ChangeEntry}
    (h : findMin heads = some (m, c)) : heads[m]? = some (some c) := by
  rcases ((scanMin_spec heads 0 maxSequenceID none (by simp)).2 m c h).2.1 with h2 | ⟨_, h2⟩
  · simp at h2
  · simpa using h2

/-- When the scan fails every head fails to beat the sentinel. -/
theorem findMin_none {heads : List (Option ChangeEntry)}
    (h : findMin heads = none) :
    ∀ x ∈ heads, ∀ e, x = some e → e.seq.Before maxSequenceID = false :=
  ((scanMin_spec heads 0 maxSequenceID none (by simp)).1 h).2

/-- The coalescing loop consumes exactly the heads carrying the minimum
sequence: feed by feed it behaves as `popIf`. -/
theorem coalesceGo_feeds (fs : List (List ChangeEntry)) :
    ∀ i m ms acc, (coalesceGo i m ms acc fs).2 = fs.map (popIf ms) := by
  induction fs with
  | nil => intro i m ms acc; simp [coalesceGo]
  | cons feed rest ih =>
    intro i m ms acc
    match feed with
    | [] => simp [coalesceGo, popIf, ih]
    | cur :: tl =>
      by_cases hc : cur.seq = ms
      · simp [coalesceGo, popIf, hc, ih]
      · simp [coalesceGo, popIf, hc, ih]

/-- Coalescing only rewrites the `Removed` set of the minimum entry; its
sequence, id and error text are untouched. -/
theorem coalesceGo_fields (fs : List (List ChangeEntry)) :
    ∀ i m ms acc, (coalesceGo i m ms acc fs).1.seq = acc.seq ∧
      (coalesceGo i m ms acc fs).1.id = acc.id ∧
      (coalesceGo i m ms acc fs).1.err = acc.err := by
  induction fs with
  | nil => intro i m ms acc; simp [coalesceGo]
  | cons feed rest ih =>
    intro i m ms acc
    match feed with
    | [] => simpa [coalesceGo] using ih (i + 1) m ms acc
    | cur :: tl =>
      by_cases hc : cur.seq = ms
      · simp only [coalesceGo, hc, if_pos]
        by_cases hcond : i ≠ m ∧ cur.removed ≠ none
        · simpa [hcond] using ih (i + 1) m ms _
        · simpa [hcond] using ih (i + 1) m ms acc
      · simpa [coalesceGo, hc] using ih (i + 1) m ms acc

/-- Membership in the coalesced `Removed` set: an element is there exactly
when it was already in the accumulator's set or in the set of some head
(other than the minimum entry's own slot `m`) that carries the minimum
sequence. -/
theorem coalesceGo_removed_mem (fs : List (List ChangeEntry)) :
    ∀ i m ms (acc : ChangeEntry) (x : String),
    (x ∈ (coalesceGo i m ms acc fs).1.removed.getD ∅ ↔
      (x ∈ acc.removed.getD ∅ ∨
        ∃ j cur tl, fs[j]? = some (cur :: tl) ∧ cur.seq = ms ∧ i + j ≠ m ∧
          x ∈ cur.removed.getD ∅)) := by
  induction fs with
  | nil => intro i m ms acc x; simp [coalesceGo]
  | cons feed rest ih =>
    intro i m ms acc x
    have hshift : (∃ j cur tl, (feed :: rest)[j]? = some (cur :: tl) ∧ cur.seq = ms ∧
        i + j ≠ m ∧ x ∈ cur.removed.getD ∅) ↔
        ((∃ cur tl, feed = cur :: tl ∧ cur.seq = ms ∧ i ≠ m ∧ x ∈ cur.removed.getD ∅) ∨
          (∃ j cur tl, rest[j]? = some (cur :: tl) ∧ cur.seq = ms ∧ (i + 1) + j ≠ m ∧
            x ∈ cur.removed.getD ∅)) := by
      constructor
      · rintro ⟨j, cur, tl, hj, hms, hne, hx⟩
        match j with
        | 0 =>
          refine Or.inl ⟨cur, tl, ?_, hms, by omega, hx⟩
          simpa using hj
        | k + 1 =>
          refine Or.inr ⟨k, cur, tl, ?_, hms, by omega, hx⟩
          simpa using hj
      · rintro (⟨cur, tl, hfeed, hms, hne, hx⟩ | ⟨j, cur, tl, hj, hms, hne, hx⟩)
        · exact ⟨0, cur, tl, by simp [hfeed], hms, by omega, hx⟩
        · exact ⟨j + 1, cur, tl, by simpa using hj, hms, by omega, hx⟩
    match feed with
    | [] =>
      rw [hshift]
      simp only [coalesceGo]
      rw [ih (i + 1) m ms acc x]
      constructor
      · rintro (h | h)
        · exact Or.inl h
        · exact Or.inr (Or.inr h)
      · rintro (h | (⟨cur, tl, hfeed, _⟩ | h))
        · exact Or.inl h
        · exact absurd hfeed (by simp)
        · exact Or.inr h
    | cur :: tl =>
      by_cases hc : cur.seq = ms
      · simp only [coalesceGo, hc, if_pos]
        rw [hshift]
        by_cases hcond : i ≠ m ∧ cur.removed ≠ none
        · rw [if_pos hcond]
          rw [ih (i + 1) m ms _ x]
          have hacc : x ∈ (match acc.removed with
              | none => cur.removed
              | some r => some (r ∪ cur.removed.getD ∅)).getD ∅ ↔
              (x ∈ acc.removed.getD ∅ ∨ x ∈ cur.removed.getD ∅) := by
            cases acc.removed <;> simp
          rw [hacc]
          constructor
          · rintro ((h | h) | h)
            · exact Or.inl h
            · exact Or.inr (Or.inl ⟨cur, tl, rfl, hc, hcond.1, h⟩)
            · exact Or.inr (Or.inr h)
          · rintro (h | (⟨cur2, tl2, hfeed, _, _, hx⟩ | h))
            · exact Or.inl (Or.inl h)
            · cases hfeed; exact Or.inl (Or.inr hx)
            · exact Or.inr h
        · rw [if_neg hcond]
          rw [ih (i + 1) m ms acc x]
          constructor
          · rintro (h | h)
            · exact Or.inl h
            · exact Or.inr (Or.inr h)
          · rintro (h | (⟨cur2, tl2, hfeed, _, hne, hx⟩ | h))
            · exact Or.inl h
            · cases hfeed
              rcases Decidable.not_and_iff_or_not.mp hcond with hcond | hcond
              · exact absurd hne hcond
              · have hn : cur.removed = none := by simpa using hcond
                simp [hn] at hx
            · exact Or.inr h
      · simp only [coalesceGo, hc, if_neg, if_false]
        rw [hshift]
        rw [ih (i + 1) m ms acc x]
        constructor
        · rintro (h | h)
          · exact Or.inl h
          · exact Or.inr (Or.inr h)
        · rintro (h | (⟨cur2, tl2, hfeed, hms, _⟩ | h))
          · exact Or.inl h
          · cases hfeed; exact absurd hms hc
          · exact Or.inr h

/-- The coalesced `Removed` set is nil exactly when the accumulator's set
and every coalesced head's set (minimum slot aside) are nil. -/
theorem coalesceGo_removed_none (fs : List (List ChangeEntry)) :
    ∀ i m ms (acc : ChangeEntry),
    ((coalesceGo i m ms acc fs).1.removed = none ↔
      (acc.removed = none ∧
        ∀ j cur tl, fs[j]? = some (cur :: tl) → cur.seq = ms → i + j ≠ m →
          cur.removed = none)) := by
  induction fs with
  | nil => intro i m ms acc; simp [coalesceGo]
  | cons feed rest ih =>
    intro i m ms acc
    have hshift : (∀ j cur tl, (feed :: rest)[j]? = some (cur :: tl) → cur.seq = ms →
        i + j ≠ m → cur.removed = none) ↔
        ((∀ cur tl, feed = cur :: tl → cur.seq = ms → i ≠ m → cur.removed = none) ∧
          (∀ j cur tl, rest[j]? = some (cur :: tl) → cur.seq = ms → (i + 1) + j ≠ m →
            cur.removed = none)) := by
      constructor
      · intro h
        refine ⟨fun cur tl hfeed hms hne => h 0 cur tl (by simp [hfeed]) hms (by omega),
          fun j cur tl hj hms hne => h (j + 1) cur tl (by simpa using hj) hms (by omega)⟩
      · rintro ⟨h0, h1⟩ j cur tl hj hms hne
        match j with
        | 0 => exact h0 cur tl (by simpa using hj) hms (by omega)
        | k + 1 => exact h1 k cur tl (by simpa using hj) hms (by omega)
    match feed with
    | [] =>
      rw [hshift]
      simp only [coalesceGo]
      rw [ih (i + 1) m ms acc]
      constructor
      · rintro ⟨h1, h2⟩
        exact ⟨h1, fun cur tl hfeed => absurd hfeed (by simp), h2⟩
      · rintro ⟨h1, _, h2⟩
        exact ⟨h1, h2⟩
    | cur :: tl =>
      by_cases hc : cur.seq = ms
      · simp only [coalesceGo, hc, if_pos]
        rw [hshift]
        by_cases hcond : i ≠ m ∧ cur.removed ≠ none
        · rw [if_pos hcond]
          rw [ih (i + 1) m ms _]
          constructor
          · rintro ⟨h1, h2⟩
            exfalso
            rcases hacc : acc.removed with _ | r
            · simp only [hacc] at h1
              exact hcond.2 h1
            · simp [hacc] at h1
          · rintro ⟨h1, h0, h2⟩
            exact absurd (h0 cur tl rfl hc hcond.1) hcond.2
        · rw [if_neg hcond]
          rw [ih (i + 1) m ms acc]
          constructor
          · rintro ⟨h1, h2⟩
            refine ⟨h1, fun cur2 tl2 hfeed hms hne => ?_, h2⟩
            rcases hfeed
            rcases Decidable.not_and_iff_or_not.mp hcond with hcond | hcond
            · exact absurd hne (by simpa using hcond)
            · simpa using hcond
          · rintro ⟨h1, _, h2⟩
            exact ⟨h1, h2⟩
      · simp only [coalesceGo, hc, if_neg, if_false]
        rw [hshift]
        rw [ih (i + 1) m ms acc]
        constructor
        · rintro ⟨h1, h2⟩
          refine ⟨h1, fun cur2 tl2 hfeed hms hne => ?_, h2⟩
          cases hfeed
          exact absurd hms hc
        · rintro ⟨h1, _, h2⟩
          exact ⟨h1, h2⟩

theorem mergeStep_isSome {hash : VectorClock → String} {st : MergeState} {m : Nat}
    {c : ChangeEntry} (h : findMin (st.feeds.map List.head?) = some (m, c)) :
    ∃ e st2, mergeStep hash st = some (e, st2) := by
  simp only [mergeStep, h]
  split_ifs <;> exact ⟨_, _, rfl⟩

/-- The merge-loop body produces an entry exactly as long as some head beats
the sentinel. -/
theorem mergeStep_none_iff (hash : VectorClock → String) (st : MergeState) :
    (mergeStep hash st = none ↔ findMin (st.feeds.map List.head?) = none) := by
  cases h : findMin (st.feeds.map List.head?) with
  | none => simp [mergeStep, h]
  | some mc =>
    obtain ⟨m, c⟩ := mc
    obtain ⟨e, st2, hs⟩ := @mergeStep_isSome hash st m c h
    simp [hs, h]

/-- Full characterisation of one successful merge step: the minimum head is
selected, every feed is popped through `popIf`, the emitted entry keeps the
minimum's identity fields and takes the coalesced `Removed` set, and the
clock-stamping follows the live/backfill split of lines 215-241. -/
theorem mergeStep_spec {hash : VectorClock → String} {st : MergeState}
    {e : ChangeEntry} {st2 : MergeState} (h : mergeStep hash st = some (e, st2)) :
    ∃ m c, findMin (st.feeds.map List.head?) = some (m, c) ∧
      st2.feeds = st.feeds.map (popIf c.seq) ∧
      e.id = c.id ∧
      e.removed = (coalesceGo 0 m c.seq c st.feeds).1.removed ∧
      e.seq.seq = c.seq.seq ∧ e.seq.vbNo = c.seq.vbNo ∧
      e.seq.triggeredBy = c.seq.triggeredBy ∧
      e.seq.triggeredByVbNo = c.seq.triggeredByVbNo ∧
      e.seq.triggeredByClock = c.seq.triggeredByClock ∧
      ((e.seq.triggeredBy = 0 ∧
         st2.cc = st.cc.setMax e.seq.vbNo e.seq.seq ∧
         e.seq.clock = some (VectorClock.hashOnly (hash st2.cc)) ∧
         st2.tbcHash = st.tbcHash) ∨
       (e.seq.triggeredBy ≠ 0 ∧ e.seq.clock = c.seq.clock ∧
         ((lookupFlight st.tbcHash (flightKey e) = "" ∧
            st2.cc = st.cc.setMax e.seq.triggeredByVbNo e.seq.triggeredBy ∧
            st2.tbcHash = (flightKey e, hash st2.cc) :: st.tbcHash) ∨
          (lookupFlight st.tbcHash (flightKey e) ≠ "" ∧
            st2.cc = st.cc ∧ st2.tbcHash = st.tbcHash)))) := by
  cases hf : findMin (st.feeds.map List.head?) with
  | none => simp [mergeStep, hf] at h
  | some mc =>
    obtain ⟨m, c⟩ := mc
    refine ⟨m, c, rfl, ?_⟩
    obtain ⟨hseq, hid, herr⟩ := coalesceGo_fields st.feeds 0 m c.seq c
    have hfeeds := coalesceGo_feeds st.feeds 0 m c.seq c
    simp only [mergeStep, hf] at h
    split_ifs at h with h1 h2
    · rw [Option.some.injEq, Prod.ext_iff] at h
      obtain ⟨he, hst⟩ := h
      subst he
      subst hst
      refine ⟨hfeeds, hid, rfl, ?_, ?_, ?_, ?_, ?_, Or.inl ⟨h1, rfl, rfl, rfl⟩⟩ <;>
        simp [hseq]
    · rw [Option.some.injEq, Prod.ext_iff] at h
      obtain ⟨he, hst⟩ := h
      subst he
      subst hst
      refine ⟨hfeeds, hid, rfl, ?_, ?_, ?_, ?_, ?_,
        Or.inr ⟨h1, ?_, Or.inl ⟨h2, rfl, rfl⟩⟩⟩ <;> simp [hseq]
    · rw [Option.some.injEq, Prod.ext_iff] at h
      obtain ⟨he, hst⟩ := h
      subst he
      subst hst
      refine ⟨hfeeds, hid, rfl, ?_, ?_, ?_, ?_, ?_,
        Or.inr ⟨h1, ?_, Or.inr ⟨h2, rfl, rfl⟩⟩⟩ <;> simp [hseq]

theorem SequenceID.sameID_trans {a b c : SequenceID} (h1 : a.sameID b)
    (h2 : b.sameID c) : a.sameID c := by
  obtain ⟨x1, x2, x3, x4, x5⟩ := h1
  obtain ⟨y1, y2, y3, y4, y5⟩ := h2
  exact ⟨x1.trans y1, x2.trans y2, x3.trans y3, x4.trans y4, x5.trans y5⟩

/-- Two sequence ids agreeing on every identity field differ at most in the
stamped cumulative clock. -/
theorem SequenceID.sameID_eq_update {a b : SequenceID} (h : a.sameID b) :
    a = { b with clock := a.clock } := by
  obtain ⟨h1, h2, h3, h4, h5⟩ := h
  cases a
  cases b
  simp_all

theorem SequenceID.sameID_clock_eq {a b : SequenceID} (h : a.sameID b)
    (hc : a.clock = b.clock) : a = b := by
  obtain ⟨h1, h2, h3, h4, h5⟩ := h
  cases a
  cases b
  simp_all

theorem mem_popIf {ms : SequenceID} {f : List ChangeEntry} {x : ChangeEntry}
    (h : x ∈ popIf ms f) : x ∈ f := by
  match f with
  | [] => simp [popIf] at h
  | cur :: tl =>
    by_cases hc : cur.seq = ms
    · simp only [popIf, hc, if_pos] at h
      exact List.mem_cons_of_mem _ h
    · simpa [popIf, hc] using h

/-- The selected minimum is an entry of one of the feeds. -/
theorem findMin_entry {fs : List (List ChangeEntry)} {m : Nat} {c : ChangeEntry}
    (h : findMin (fs.map List.head?) = some (m, c)) : ∃ f ∈ fs, c ∈ f := by
  have hm := findMin_mem h
  rw [List.getElem?_map] at hm
  obtain ⟨f, hf, hhead⟩ := Option.map_eq_some'.mp hm
  rw [← List.get?_eq_getElem?] at hf
  refine ⟨f, List.get?_mem hf, ?_⟩
  match f, hhead with
  | cur :: tl, hhead =>
    have : cur = c := by simpa using hhead
    exact this ▸ List.mem_cons_self _ _

/-- Clock-blind predicates that hold on every queued entry hold on every
entry the merge loop emits: each emitted entry is a queued head up to the
stamped clock, and the feeds only shrink. -/
theorem mergeOutput_all {hash : VectorClock → String} (P : SequenceID → Prop)
    (hblind : ∀ s h, P s → P { s with clock := h }) :
    ∀ (fuel limit : Nat) (st : MergeState),
      (∀ f ∈ st.feeds, ∀ e ∈ f, P e.seq) →
      ∀ o ∈ mergeOutput hash fuel limit st, P o.seq := by
  intro fuel
  induction fuel with
  | zero => intro limit st _ o ho; simp [mergeOutput, mergeTrace] at ho
  | succ fuel ih =>
    intro limit st hall o ho
    simp only [mergeOutput, mergeTrace] at ho
    cases hstep : mergeStep hash st with
    | none => simp [hstep] at ho
    | some est =>
      obtain ⟨e, st2⟩ := est
      obtain ⟨m, c, hf, hfeeds, _, _, h1, h2, h3, h4, h5, _⟩ := mergeStep_spec hstep
      have hPe : P e.seq := by
        obtain ⟨f, hfm, hcf⟩ := findMin_entry hf
        have hPc : P c.seq := hall f hfm c hcf
        have heq : e.seq = { c.seq with clock := e.seq.clock } :=
          SequenceID.sameID_eq_update ⟨h1, h2, h3, h4, h5⟩
        rw [heq]
        exact hblind _ _ hPc
      rw [hstep] at ho
      by_cases hl : limit = 1
      · simp [hl] at ho
        exact ho ▸ hPe
      · simp only [hl, if_neg, if_false] at ho
        rcases List.mem_map.mp ho with ⟨t, ht, hto⟩
        rcases List.mem_cons.mp ht with ht | ht
        · rw [ht] at hto
          exact hto ▸ hPe
        · refine ih (limit - 1) st2 ?_ o (List.mem_map.mpr ⟨t, ht, hto⟩)
          intro f2 hf2 e2 he2
          rw [hfeeds] at hf2
          obtain ⟨f, hfm, hpop⟩ := List.mem_map.mp hf2
          exact hall f hfm e2 (mem_popIf (hpop ▸ he2))

/-- After a merge step, every entry still queued fails to be `Before` the
emitted minimum and differs from it in some identity field: sorted feeds put
equal-id entries at their heads, and those heads were all consumed. -/
theorem step_remaining {m : Nat} {c : ChangeEntry} {st : MergeState}
    (hf : findMin (st.feeds.map List.head?) = some (m, c))
    (hsort : ∀ f ∈ st.feeds, f.Pairwise (fun a b => a.seq.Before b.seq = true))
    (hclock : ∀ f ∈ st.feeds, ∀ e ∈ f, e.seq.clock = none) :
    ∀ f ∈ st.feeds, ∀ x ∈ popIf c.seq f,
      x.seq.Before c.seq = false ∧ ¬ c.seq.sameID x.seq := by
  intro f hfm x hx
  match f, hx with
  | cur :: tl, hx =>
    have hhead : (some cur) ∈ st.feeds.map List.head? :=
      List.mem_map.mpr ⟨cur :: tl, hfm, rfl⟩
    have hmin : cur.seq.Before c.seq = false := findMin_min hf _ hhead cur rfl
    by_cases he : cur.seq = c.seq
    · simp only [popIf, he, if_pos] at hx
      have hcx : cur.seq.Before x.seq = true :=
        (List.pairwise_cons.mp (hsort _ hfm)).1 x hx
      have hcx2 : c.seq.Before x.seq = true := he ▸ hcx
      refine ⟨SequenceID.before_asymm hcx2, fun hsame => ?_⟩
      have := SequenceID.sameID_not_before hsame
      rw [this] at hcx2
      exact Bool.false_ne_true hcx2
    · simp only [popIf, he, if_neg, if_false] at hx
      rcases List.mem_cons.mp hx with hx | hx
      · subst hx
        refine ⟨hmin, fun hsame => ?_⟩
        obtain ⟨fc, hfc, hcfc⟩ := findMin_entry hf
        have h1 : c.seq.clock = none := hclock fc hfc c hcfc
        have h2 : x.seq.clock = none := hclock _ hfm x (List.mem_cons_self _ _)
        exact he (SequenceID.sameID_clock_eq (SequenceID.sameID_symm hsame)
          (h2.trans h1.symm))
      · have hcx : cur.seq.Before x.seq = true :=
          (List.pairwise_cons.mp (hsort _ hfm)).1 x hx
        constructor
        · cases hxc : x.seq.Before c.seq
          · rfl
          · have := SequenceID.before_trans hcx hxc
            rw [this] at hmin
            exact absurd hmin (by simp)
        · intro hsame
          have : cur.seq.Before x.seq = cur.seq.Before c.seq :=
            SequenceID.sameID_before_right (SequenceID.sameID_symm hsame) _
          rw [hcx, hmin] at this
          exact Bool.noConfusion this

/-- The merge loop emits a stream that is pairwise nondecreasing under
`Before` and pairwise distinct on identity fields, provided every feed is
strictly ascending under `Before` and feed entries carry no stamped clock
(as the per-channel producers guarantee). -/
theorem mergeOutput_pairwise {hash : VectorClock → String} :
    ∀ (fuel limit : Nat) (st : MergeState),
      (∀ f ∈ st.feeds, f.Pairwise (fun a b => a.seq.Before b.seq = true)) →
      (∀ f ∈ st.feeds, ∀ e ∈ f, e.seq.clock = none) →
      (mergeOutput hash fuel limit st).Pairwise
        (fun a b => b.seq.Before a.seq = false ∧ ¬ a.seq.sameID b.seq) := by
  intro fuel
  induction fuel with
  | zero => intro limit st _ _; simp [mergeOutput, mergeTrace]
  | succ fuel ih =>
    intro limit st hsort hclock
    simp only [mergeOutput, mergeTrace]
    cases hstep : mergeStep hash st with
    | none => simp
    | some est =>
      obtain ⟨e, st2⟩ := est
      obtain ⟨m, c, hf, hfeeds, _, _, h1, h2, h3, h4, h5, _⟩ := mergeStep_spec hstep
      have hsame : e.seq.sameID c.seq := ⟨h1, h2, h3, h4, h5⟩
      by_cases hl : limit = 1
      · simp [hl]
      · simp only [hl, if_neg, if_false, List.map_cons, List.pairwise_cons]
        have hsort2 : ∀ f ∈ st2.feeds, f.Pairwise (fun a b => a.seq.Before b.seq = true) := by
          intro f2 hf2
          rw [hfeeds] at hf2
          obtain ⟨f, hfm, hpop⟩ := List.mem_map.mp hf2
          subst hpop
          match f with
          | [] => simp [popIf]
          | cur :: tl =>
            by_cases hc : cur.seq = c.seq
            · simp only [popIf, hc, if_pos]
              exact (hsort _ hfm).of_cons
            · simpa [popIf, hc] using hsort _ hfm
        have hclock2 : ∀ f ∈ st2.feeds, ∀ x ∈ f, x.seq.clock = none := by
          intro f2 hf2 x hx
          rw [hfeeds] at hf2
          obtain ⟨f, hfm, hpop⟩ := List.mem_map.mp hf2
          exact hclock f hfm x (mem_popIf (hpop ▸ hx))
        refine ⟨?_, ih (limit - 1) st2 hsort2 hclock2⟩
        intro r hr
        have hrem := step_remaining hf hsort hclock
        have hP : r.seq.Before c.seq = false ∧ ¬ c.seq.sameID r.seq := by
          refine mergeOutput_all
            (fun s => s.Before c.seq = false ∧ ¬ c.seq.sameID s) ?_
            fuel (limit - 1) st2 ?_ r hr
          · intro s hcl hs
            exact ⟨hs.1, fun hc2 => hs.2 ⟨hc2.1, hc2.2.1, hc2.2.2.1, hc2.2.2.2.1, hc2.2.2.2.2⟩⟩
          · intro f2 hf2 x hx
            rw [hfeeds] at hf2
            obtain ⟨f, hfm, hpop⟩ := List.mem_map.mp hf2
            exact hrem f hfm x (hpop ▸ hx)
        refine ⟨?_, fun hc2 => hP.2 (SequenceID.sameID_trans (SequenceID.sameID_symm hsame) hc2)⟩
        rw [SequenceID.sameID_before_right hsame r.seq]
        exact hP.1

/-- With a positive limit the merge loop runs the unlimited computation and
cuts it after `limit` emissions. -/
theorem mergeTrace_limit_take (hash : VectorClock → String) :
    ∀ (fuel : Nat) (st : MergeState) (limit : Nat), 1 ≤ limit →
      mergeTrace hash fuel limit st = (mergeTrace hash fuel 0 st).take limit := by
  intro fuel
  induction fuel with
  | zero => intro st limit _; simp [mergeTrace]
  | succ fuel ih =>
    intro st limit hpos
    simp only [mergeTrace]
    cases hstep : mergeStep hash st with
    | none => simp
    | some est =>
      obtain ⟨e, st2⟩ := est
      by_cases hl : limit = 1
      · simp [hl]
      · simp only [hl, if_neg, if_false]
        rw [if_neg (by omega : ¬ (0 : Nat) = 1)]
        rw [List.take_cons (by omega : 0 < limit)]
        rw [ih st2 (limit - 1) (by omega)]

theorem mergeOutput_limit_take (hash : VectorClock → String)
    (fuel : Nat) (st : MergeState) (limit : Nat) (hpos : 1 ≤ limit) :
    mergeOutput hash fuel limit st = (mergeOutput hash fuel 0 st).take limit := by
  simp only [mergeOutput, mergeTrace_limit_take hash fuel st limit hpos, List.map_take]

theorem lookupFlight_cons (k k2 : Nat × Nat) (v : String)
    (m : List ((Nat × Nat) × String)) :
    lookupFlight ((k2, v) :: m) k = if k = k2 then v else lookupFlight m k := by
  by_cases h : k = k2
  · simp [lookupFlight, List.lookup, h]
  · have hb : (k == k2) = false := by simpa using h
    simp [lookupFlight, List.lookup, hb, h]

/-- One merge step never erases a stamped flight hash (the inserted hash is
the hasher's output, assumed nonempty like every real hash). -/
theorem mergeStep_lookup_mono {hash : VectorClock → String} {st : MergeState}
    {e : ChangeEntry} {st2 : MergeState} (hh : ∀ cl, hash cl ≠ "")
    (h : mergeStep hash st = some (e, st2)) (k : Nat × Nat)
    (hne : lookupFlight st.tbcHash k ≠ "") : lookupFlight st2.tbcHash k ≠ "" := by
  obtain ⟨m, c, _, _, _, _, _, _, _, _, _, hbr⟩ := mergeStep_spec h
  rcases hbr with ⟨_, _, _, htb⟩ | ⟨_, _, ⟨_, _, htb⟩ | ⟨_, _, htb⟩⟩
  · rw [htb]; exact hne
  · rw [htb, lookupFlight_cons]
    by_cases hk : k = flightKey e
    · rw [if_pos hk]; exact hh _
    · rw [if_neg hk]; exact hne
  · rw [htb]; exact hne

/-- A merge step leaves flight `k`'s hash slot untouched unless it is a
backfill emission of flight `k` itself. -/
theorem mergeStep_lookup_other {hash : VectorClock → String} {st : MergeState}
    {e : ChangeEntry} {st2 : MergeState}
    (h : mergeStep hash st = some (e, st2)) (k : Nat × Nat)
    (hk : e.seq.triggeredBy = 0 ∨ flightKey e ≠ k) :
    lookupFlight st2.tbcHash k = lookupFlight st.tbcHash k := by
  obtain ⟨m, c, _, _, _, _, _, _, _, _, _, hbr⟩ := mergeStep_spec h
  rcases hbr with ⟨_, _, _, htb⟩ | ⟨hne, _, ⟨_, _, htb⟩ | ⟨_, _, htb⟩⟩
  · rw [htb]
  · rw [htb, lookupFlight_cons]
    rcases hk with hk | hk
    · exact absurd hk (by rcases hbr' : e.seq.triggeredBy with _ | n <;> simp_all)
    · rw [if_neg (fun hx => hk hx.symm)]
  · rw [htb]

/-- A stamping step records the hash of the advanced cumulative clock for
its flight. -/
theorem mergeStep_stamped_lookup {hash : VectorClock → String} {st : MergeState}
    {e : ChangeEntry} {st2 : MergeState}
    (h : mergeStep hash st = some (e, st2)) (he : e.seq.triggeredBy ≠ 0)
    (hl : lookupFlight st.tbcHash (flightKey e) = "") :
    st2.cc = st.cc.setMax e.seq.triggeredByVbNo e.seq.triggeredBy ∧
      lookupFlight st2.tbcHash (flightKey e) = hash st2.cc := by
  obtain ⟨m, c, _, _, _, _, _, _, _, _, _, hbr⟩ := mergeStep_spec h
  rcases hbr with ⟨htb0, _⟩ | ⟨_, _, ⟨_, hcc, htb⟩ | ⟨hne, _, _⟩⟩
  · exact absurd htb0 he
  · refine ⟨hcc, ?_⟩
    rw [htb, lookupFlight_cons, if_pos rfl]
  · exact absurd hl hne

/-- Every trace element records a genuine merge step from its before-state
to its after-state. -/
theorem mergeTrace_step {hash : VectorClock → String} :
    ∀ (fuel limit : Nat) (st : MergeState),
      ∀ t ∈ mergeTrace hash fuel limit st, mergeStep hash t.1 = some (t.2.1, t.2.2) := by
  intro fuel
  induction fuel with
  | zero => intro limit st t ht; simp [mergeTrace] at ht
  | succ fuel ih =>
    intro limit st t ht
    simp only [mergeTrace] at ht
    cases hstep : mergeStep hash st with
    | none => simp [hstep] at ht
    | some est =>
      obtain ⟨e, st2⟩ := est
      rw [hstep] at ht
      by_cases hl : limit = 1
      · simp only [hl, if_pos, List.mem_singleton] at ht
        rw [ht]
        exact hstep
      · simp only [hl, if_neg, if_false, List.mem_cons] at ht
        rcases ht with ht | ht
        · rw [ht]; exact hstep
        · exact ih (limit - 1) st2 t ht

/-- Once a flight's hash slot is filled no later trace element stamps it. -/
theorem mergeTrace_no_stamp {hash : VectorClock → String} (hh : ∀ cl, hash cl ≠ "") :
    ∀ (fuel limit : Nat) (st : MergeState) (k : Nat × Nat),
      lookupFlight st.tbcHash k ≠ "" →
      ∀ t ∈ mergeTrace hash fuel limit st, stampEvent k t = false := by
  intro fuel
  induction fuel with
  | zero => intro limit st k _ t ht; simp [mergeTrace] at ht
  | succ fuel ih =>
    intro limit st k hne t ht
    simp only [mergeTrace] at ht
    cases hstep : mergeStep hash st with
    | none => simp [hstep] at ht
    | some est =>
      obtain ⟨e, st2⟩ := est
      rw [hstep] at ht
      have hhead : stampEvent k (st, e, st2) = false := by
        simp only [stampEvent, decide_eq_false_iff_not]
        rintro ⟨_, _, hl⟩
        exact hne hl
      by_cases hl : limit = 1
      · simp only [hl, if_pos, List.mem_singleton] at ht
        rw [ht]
        exact hhead
      · simp only [hl, if_neg, if_false, List.mem_cons] at ht
        rcases ht with ht | ht
        · rw [ht]; exact hhead
        · exact ih (limit - 1) st2 k (mergeStep_lookup_mono hh hstep k hne) t ht

/-- A flight's shared clock is stamped at most once along any merge run. -/
theorem mergeTrace_countStamp_le_one {hash : VectorClock → String}
    (hh : ∀ cl, hash cl ≠ "") :
    ∀ (fuel limit : Nat) (st : MergeState) (k : Nat × Nat),
      (mergeTrace hash fuel limit st).countP (stampEvent k) ≤ 1 := by
  intro fuel
  induction fuel with
  | zero => intro limit st k; simp [mergeTrace]
  | succ fuel ih =>
    intro limit st k
    simp only [mergeTrace]
    cases hstep : mergeStep hash st with
    | none => simp
    | some est =>
      obtain ⟨e, st2⟩ := est
      by_cases hl : limit = 1
      · simp only [hl, if_pos]
        exact le_trans (List.countP_le_length _) (by simp)
      · simp only [hl, if_neg, if_false, List.countP_cons]
        cases hev : stampEvent k (st, e, st2) with
        | false => simpa [hev] using ih (limit - 1) st2 k
        | true =>
          have hev2 := of_decide_eq_true hev
          obtain ⟨htb, hkey, hempty⟩ := hev2
          have hstamped := mergeStep_stamped_lookup hstep htb (hkey ▸ hempty)
          have hne2 : lookupFlight st2.tbcHash k ≠ "" := by
            rw [← hkey, hstamped.2]
            exact hh _
          have hzero : (mergeTrace hash fuel (limit - 1) st2).countP (stampEvent k) = 0 :=
            List.countP_eq_zero.mpr (by
              intro t ht
              simpa using mergeTrace_no_stamp hh fuel (limit - 1) st2 k hne2 t ht)
          simp [hev, hzero]

/-- If a backfill entry of flight `k` is emitted and the flight's hash slot
starts empty, some trace element stamps it. -/
theorem mergeTrace_countStamp_pos {hash : VectorClock → String} :
    ∀ (fuel limit : Nat) (st : MergeState) (k : Nat × Nat),
      lookupFlight st.tbcHash k = "" →
      (∃ t ∈ mergeTrace hash fuel limit st,
        t.2.1.seq.triggeredBy ≠ 0 ∧ flightKey t.2.1 = k) →
      1 ≤ (mergeTrace hash fuel limit st).countP (stampEvent k) := by
  intro fuel
  induction fuel with
  | zero => intro limit st k _ hex; simp [mergeTrace] at hex
  | succ fuel ih =>
    intro limit st k hempty hex
    simp only [mergeTrace] at hex ⊢
    cases hstep : mergeStep hash st with
    | none => rw [hstep] at hex; simp at hex
    | some est =>
      obtain ⟨e, st2⟩ := est
      rw [hstep] at hex
      by_cases hl : limit = 1
      · simp only [hl, if_pos] at hex ⊢
        obtain ⟨t, ht, htb, hkey⟩ := hex
        rw [List.mem_singleton] at ht
        subst ht
        have : stampEvent k (st, e, st2) = true := by
          simp only [stampEvent, decide_eq_true_eq]
          exact ⟨htb, hkey, hempty⟩
        simp [List.countP_cons, this]
      · simp only [hl, if_neg, if_false] at hex ⊢
        rw [List.countP_cons]
        cases hev : stampEvent k (st, e, st2) with
        | true => simp [hev]
        | false =>
          obtain ⟨t, ht, htb, hkey⟩ := hex
          rcases List.mem_cons.mp ht with ht | ht
          · exfalso
            rw [ht] at htb hkey
            have : stampEvent k (st, e, st2) = true := by
              simp only [stampEvent, decide_eq_true_eq]
              exact ⟨htb, hkey, hempty⟩
            rw [this] at hev
            exact Bool.noConfusion hev
          · have hkeep : lookupFlight st2.tbcHash k = "" := by
              have hor : e.seq.triggeredBy = 0 ∨ flightKey e ≠ k := by
                by_cases h0 : e.seq.triggeredBy = 0
                · exact Or.inl h0
                · refine Or.inr (fun hk => ?_)
                  have : stampEvent k (st, e, st2) = true := by
                    simp only [stampEvent, decide_eq_true_eq]
                    exact ⟨h0, hk, hempty⟩
                  rw [this] at hev
                  exact Bool.noConfusion hev
              rw [mergeStep_lookup_other hstep k hor]
              exact hempty
            simpa [hev] using ih (limit - 1) st2 k hkeep ⟨t, ht, htb, hkey⟩

/-- The backfill pass emits exactly the log entries at or below the
triggered-by frontier that lie strictly after the cursor position, in log
order. -/
theorem backfillScan_fst (channel : String) (options : ChangesOptions)
    (tbc : VectorClock) :
    ∀ log : List LogEntry,
      (backfillScan channel options tbc log).1 =
        (log.filter (fun L => decide (L.sequence ≤ tbc.get L.vbNo) &&
            options.since.vbucketSequenceBefore L.vbNo L.sequence)).map
          (fun L => makeChangeEntry L (backfillSeqID options L) channel) := by
  intro log
  induction log with
  | nil => simp [backfillScan]
  | cons L rest ih =>
    simp only [backfillScan, List.filter_cons]
    by_cases h1 : (decide (L.sequence ≤ tbc.get L.vbNo) &&
        options.since.vbucketSequenceBefore L.vbNo L.sequence) = true
    · simp [h1, ih]
    · simp only [Bool.not_eq_true] at h1
      simp [h1, ih]

/-- The live pass sends exactly the log entries strictly above the
triggered-by frontier, in log order, with plain sequence ids. -/
theorem livePass_backfillScan (channel : String) (options : ChangesOptions)
    (tbc : VectorClock) :
    ∀ log : List LogEntry,
      livePass channel (backfillScan channel options tbc log).2 =
        (log.filter (fun L => !decide (L.sequence ≤ tbc.get L.vbNo))).map
          (fun L => makeChangeEntry L (liveSeqID L) channel) := by
  intro log
  induction log with
  | nil => simp [backfillScan, livePass]
  | cons L rest ih =>
    simp only [backfillScan, List.filter_cons]
    by_cases h1 : decide (L.sequence ≤ tbc.get L.vbNo) = true
    · simp only [h1, if_pos, Bool.not_true]
      simpa [livePass, h1] using ih
    · simp only [Bool.not_eq_true] at h1
      simp only [h1, Bool.not_false]
      simpa [livePass, h1] using ih

/-- Characterisation of a backfill-pass run of the per-channel feed: the
backfill block followed by the live block. -/
theorem vectorChangesFeed_char (channel : String) (options : ChangesOptions)
    (log : List LogEntry) (tbc : VectorClock)
    (h : options.since.triggeredByClock = some tbc) :
    vectorChangesFeedEntries channel options log =
      ((log.filter (fun L => decide (L.sequence ≤ tbc.get L.vbNo) &&
          options.since.vbucketSequenceBefore L.vbNo L.sequence)).map
        (fun L => makeChangeEntry L (backfillSeqID options L) channel)) ++
      ((log.filter (fun L => !decide (L.sequence ≤ tbc.get L.vbNo))).map
        (fun L => makeChangeEntry L (liveSeqID L) channel)) := by
  unfold vectorChangesFeedEntries
  rw [h]
  by_cases hlog : log = []
  · subst hlog; simp
  · rw [if_neg hlog]
    simp only []
    rw [backfillScan_fst, livePass_backfillScan]

/-- C3: in a backfill pass (cursor carries a triggered-by clock `tbc`) a log
entry `L` is emitted as a backfill entry (sequence id built by
`backfillSeqID`, carrying the triggered-by fields copied from the cursor)
exactly when `L.seq ≤ tbc.get L.vbNo` and `L` is strictly after the cursor
position within its vbucket; consequently every emitted entry with nonzero
`triggeredBy` satisfies `e.seq.seq ≤ e.seq.triggeredByClock.get e.seq.vbNo`. -/
theorem claim3_backfill_emission_iff (channel : String) (options : ChangesOptions)
    (log : List LogEntry) (tbc : VectorClock)
    (h : options.since.triggeredByClock = some tbc) :
    (∀ L ∈ log,
      (makeChangeEntry L (backfillSeqID options L) channel ∈
          vectorChangesFeedEntries channel options log ↔
        (L.sequence ≤ tbc.get L.vbNo ∧
          options.since.vbucketSequenceBefore L.vbNo L.sequence = true))) ∧
    (∀ e ∈ vectorChangesFeedEntries channel options log,
      e.seq.triggeredBy ≠ 0 →
        e.seq.triggeredByClock = some tbc ∧
        e.seq.seq ≤ clockGet e.seq.triggeredByClock e.seq.vbNo) := by
  rw [vectorChangesFeed_char channel options log tbc h]
  constructor
  · intro L hL
    constructor
    · intro hmem
      rcases List.mem_append.mp hmem with hmem | hmem
      · obtain ⟨L2, hL2, hEq⟩ := List.mem_map.mp hmem
        obtain ⟨hL2mem, hL2cond⟩ := List.mem_filter.mp hL2
        have hseq : L2.sequence = L.sequence ∧ L2.vbNo = L.vbNo := by
          have := congrArg (fun e => (e.seq.seq, e.seq.vbNo)) hEq
          simpa [makeChangeEntry, backfillSeqID] using this
        rw [Bool.and_eq_true, decide_eq_true_eq] at hL2cond
        rw [← hseq.1, ← hseq.2]
        exact ⟨hL2cond.1, hL2cond.2⟩
      · obtain ⟨L2, hL2, hEq⟩ := List.mem_map.mp hmem
        have := congrArg (fun e => e.seq.triggeredByClock) hEq
        simp only [makeChangeEntry, liveSeqID, backfillSeqID] at this
        rw [h] at this
        exact absurd this (by simp)
    · intro ⟨h1, h2⟩
      refine List.mem_append.mpr (Or.inl (List.mem_map.mpr ⟨L, ?_, rfl⟩))
      refine List.mem_filter.mpr ⟨hL, ?_⟩
      rw [Bool.and_eq_true, decide_eq_true_eq]
      exact ⟨h1, h2⟩
  · intro e hmem htb
    rcases List.mem_append.mp hmem with hmem | hmem
    · obtain ⟨L2, hL2, hEq⟩ := List.mem_map.mp hmem
      obtain ⟨hL2mem, hL2cond⟩ := List.mem_filter.mp hL2
      rw [Bool.and_eq_true, decide_eq_true_eq] at hL2cond
      subst hEq
      constructor
      · simp [makeChangeEntry, backfillSeqID, h]
      · simp only [makeChangeEntry, backfillSeqID, h, clockGet, Option.getD_some]
        exact hL2cond.1
    · obtain ⟨L2, hL2, hEq⟩ := List.mem_map.mp hmem
      subst hEq
      simp [makeChangeEntry, liveSeqID] at htb
/-- Witness for C3 at a concrete backfill pass: cursor clock `{vb 2 ↦ 8}`,
one entry below the frontier and after the cursor. -/
theorem claim3_witness :
    witOptions.since.triggeredByClock = some witTbc ∧
    (∀ L ∈ [witLogP],
      (makeChangeEntry L (backfillSeqID witOptions L) "C" ∈
          vectorChangesFeedEntries "C" witOptions [witLogP] ↔
        (L.sequence ≤ witTbc.get L.vbNo ∧
          witOptions.since.vbucketSequenceBefore L.vbNo L.sequence = true))) :=
  ⟨rfl, (claim3_backfill_emission_iff "C" witOptions [witLogP] witTbc rfl).1⟩

/-- C10: in a backfill pass every log entry at or below the triggered-by
frontier is blanked from the local log whether or not it was emitted, so no
such position is ever emitted in live form (null triggered-by clock) by the
same invocation; and with a duplicate-free log no position is emitted twice. -/
theorem claim10_at_most_once (channel : String) (options : ChangesOptions)
    (log : List LogEntry) (tbc : VectorClock)
    (h : options.since.triggeredByClock = some tbc) :
    (∀ e ∈ vectorChangesFeedEntries channel options log,
      e.seq.triggeredByClock = none → ¬ (e.seq.seq ≤ tbc.get e.seq.vbNo)) ∧
    ((log.map (fun L => (L.vbNo, L.sequence))).Nodup →
      ((vectorChangesFeedEntries channel options log).map
        (fun e => (e.seq.vbNo, e.seq.seq))).Nodup) := by
  rw [vectorChangesFeed_char channel options log tbc h]
  constructor
  · intro e hmem hnone
    rcases List.mem_append.mp hmem with hmem | hmem
    · obtain ⟨L2, hL2, hEq⟩ := List.mem_map.mp hmem
      subst hEq
      simp only [makeChangeEntry, backfillSeqID, h] at hnone
      exact absurd hnone (by simp)
    · obtain ⟨L2, hL2, hEq⟩ := List.mem_map.mp hmem
      obtain ⟨hL2mem, hL2cond⟩ := List.mem_filter.mp hL2
      subst hEq
      simp only [makeChangeEntry, liveSeqID]
      simpa using hL2cond
  · intro hnodup
    rw [List.map_append, List.map_map, List.map_map]
    have hkeyB : ((fun e : ChangeEntry => (e.seq.vbNo, e.seq.seq)) ∘
        fun L => makeChangeEntry L (backfillSeqID options L) channel) =
        fun L => (L.vbNo, L.sequence) := rfl
    have hkeyL : ((fun e : ChangeEntry => (e.seq.vbNo, e.seq.seq)) ∘
        fun L => makeChangeEntry L (liveSeqID L) channel) =
        fun L => (L.vbNo, L.sequence) := rfl
    rw [hkeyB, hkeyL]
    have hsubB : List.Sublist
        ((log.filter (fun L => decide (L.sequence ≤ tbc.get L.vbNo) &&
          options.since.vbucketSequenceBefore L.vbNo L.sequence)).map
            (fun L => (L.vbNo, L.sequence)))
        (log.map (fun L => (L.vbNo, L.sequence))) :=
      (List.filter_sublist log).map _
    have hsubL : List.Sublist
        ((log.filter (fun L => !decide (L.sequence ≤ tbc.get L.vbNo))).map
            (fun L => (L.vbNo, L.sequence)))
        (log.map (fun L => (L.vbNo, L.sequence))) :=
      (List.filter_sublist log).map _
    refine List.Nodup.append (hnodup.sublist hsubB) (hnodup.sublist hsubL) ?_
    intro a haB haL
    obtain ⟨L1, hL1, hEq1⟩ := List.mem_map.mp haB
    obtain ⟨L2, hL2, hEq2⟩ := List.mem_map.mp haL
    obtain ⟨_, hc1⟩ := List.mem_filter.mp hL1
    obtain ⟨_, hc2⟩ := List.mem_filter.mp hL2
    rw [Bool.and_eq_true, decide_eq_true_eq] at hc1
    rw [Bool.not_eq_true', decide_eq_false_iff_not] at hc2
    have hkey : L1.vbNo = L2.vbNo ∧ L1.sequence = L2.sequence := by
      have := hEq1.trans hEq2.symm
      exact ⟨congrArg Prod.fst this, congrArg Prod.snd this⟩
    rw [hkey.1, hkey.2] at hc1
    exact hc2 hc1.1
/-- Witness for C10 at a concrete backfill pass with one entry below and one
above the frontier. -/
theorem claim10_witness :
    witOptions.since.triggeredByClock = some witTbc ∧
    ((∀ e ∈ vectorChangesFeedEntries "C" witOptions [witLogP, witLogR],
      e.seq.triggeredByClock = none → ¬ (e.seq.seq ≤ witTbc.get e.seq.vbNo)) ∧
    (([witLogP, witLogR].map (fun L => (L.vbNo, L.sequence))).Nodup →
      ((vectorChangesFeedEntries "C" witOptions [witLogP, witLogR]).map
        (fun e => (e.seq.vbNo, e.seq.seq))).Nodup)) :=
  ⟨rfl, claim10_at_most_once "C" witOptions [witLogP, witLogR] witTbc rfl⟩

/-- C2 counterexample: at `cexSince` (a cursor with a backfill in progress
for a different channel, so its triggered-by clock is non-null and differs
from its live clock on vbucket 1) the claim's trigger condition holds for
grant `(12, vb 1)` — the channel is not new, `seqAddedAt > 0`, the cursor
reads `9 < 12`, and no backfill is in progress for this channel — yet the
cursor handed over is not the claimed one: its `triggeredByClock` is a copy
of `getChangesClock(options.Since)` (the in-progress triggered-by clock),
not of `options.since.clock` as the claim states. -/
theorem claim2_counterexample :
    backfillRequired cexSince 12 1 = true ∧
    backfillInProgress cexSince 12 1 = false ∧
    planChannelCase cexSince false 12 1 = PlanCase.fresh ∧
    planChannelSince cexSince false 12 1 ≠ cexClaimedCursor ∧
    (planChannelSince cexSince false 12 1).triggeredByClock ≠ cexSince.clock := by
  refine ⟨?_, ?_, ?_, ?_, ?_⟩ <;> decide

/-- C2 amended: the planner starts a fresh backfill (its Case 2 branch) for
a channel exactly when the channel is newly added this iteration, or
backfill is required (`seqAddedAt > 0` and the cursor sequence for
`vbAddedAt` is below `seqAddedAt`) while no backfill is already in progress
for the channel; the fresh cursor it then hands over is
`{seq 0, vbNo 0, clock zero, triggeredBy seqAddedAt, triggeredByVbNo
vbAddedAt, triggeredByClock := copy of getChangesClock(options.Since)}`. -/
theorem claim2_planner_fresh_backfill (since : SequenceID) (isNew : Bool)
    (sA vA : Nat) :
    (planChannelCase since isNew sA vA = PlanCase.fresh ↔
      (isNew = true ∨ (backfillRequired since sA vA = true ∧
        backfillInProgress since sA vA = false))) ∧
    (planChannelCase since isNew sA vA = PlanCase.fresh →
      planChannelSince since isNew sA vA =
        { seq := 0, vbNo := 0, clock := some VectorClock.zero,
          triggeredBy := sA, triggeredByVbNo := vA,
          triggeredByClock := getChangesClock since }) := by
  constructor
  · cases hn : isNew <;>
      cases hr : backfillRequired since sA vA <;>
        cases hp : backfillInProgress since sA vA <;>
          simp [planChannelCase, hn, hr, hp]
  · intro h
    unfold planChannelSince
    rw [h]
/-- Witness for the amended C2: a newly-added channel triggers a fresh
backfill whose triggered-by clock is the cursor clock of `cexSince`. -/
theorem claim2_witness :
    planChannelCase cexSince true 5 1 = PlanCase.fresh ∧
    planChannelSince cexSince true 5 1 =
      { seq := 0, vbNo := 0, clock := some VectorClock.zero, triggeredBy := 5,
        triggeredByVbNo := 1, triggeredByClock := getChangesClock cexSince } := by
  have h := claim2_planner_fresh_backfill cexSince true 5 1
  have hc : planChannelCase cexSince true 5 1 = PlanCase.fresh := h.1.mpr (Or.inl rfl)
  exact ⟨hc, h.2 hc⟩

/-- C9: whenever the cursor carries a non-null triggered-by clock, every
cursor read made while planning feeds — `getChangesClock`, the planner's
backfill-required comparison and the user pseudo-feed threshold — uses that
triggered-by clock; the live clock is consulted only when the triggered-by
clock is null. -/
theorem claim9_cursor_clock_selection (s : SequenceID) :
    (∀ c : VectorClock, s.triggeredByClock = some c →
      getChangesClock s = some c ∧
      (∀ vb, sinceSeqFor s vb = c.get vb) ∧
      (∀ sA vA, backfillRequired s sA vA = decide (0 < sA ∧ c.get vA < sA)) ∧
      (∀ (feeds : List (List ChangeEntry)) (options : ChangesOptions)
          (u : UserInfo) (userVbNo : Nat), options.since = s →
        appendVectorUserFeed feeds options u userVbNo =
          (if 0 < u.sequence ∧ c.get userVbNo < u.sequence then
            feeds ++ [[userChangeEntry u userVbNo]] else feeds))) ∧
    (s.triggeredByClock = none → getChangesClock s = s.clock) := by
  constructor
  · intro c hc
    have hg : getChangesClock s = some c := by simp [getChangesClock, hc]
    have hs : ∀ vb, sinceSeqFor s vb = c.get vb := by
      intro vb
      simp [sinceSeqFor, hg, clockGet]
    refine ⟨hg, hs, ?_, ?_⟩
    · intro sA vA
      simp [backfillRequired, hs]
    · intro feeds options u userVbNo hopt
      simp [appendVectorUserFeed, hopt, hs]
  · intro hc
    simp [getChangesClock, hc]
/-- Witness for C9 at `cexSince`, whose triggered-by clock is non-null. -/
theorem claim9_witness :
    getChangesClock cexSince = some ⟨[(1, 9)], ""⟩ ∧
    sinceSeqFor cexSince 1 = VectorClock.get ⟨[(1, 9)], ""⟩ 1 :=
  ⟨((claim9_cursor_clock_selection cexSince).1 _ rfl).1,
   ((claim9_cursor_clock_selection cexSince).1 _ rfl).2.1 1⟩

/-- C5 counterexample: with a `GetChanges` stub failing on channel "A", the
entry point still returns a nil synchronous error — the failure is only
observable as an output stream that closes with no entries — refuting the
claim that the error is returned synchronously from the entry point. -/
theorem claim5_counterexample :
    cexGetChanges "A" witOptionsEmpty = Except.error "boom" ∧
    (vectorMultiChangesFeed witHash cexGetChanges none 0
      [("A", { vbNo := some 1, sequence := 0 })] [] witOptionsEmpty).1 = none ∧
    (vectorMultiChangesFeed witHash cexGetChanges none 0
      [("A", { vbNo := some 1, sequence := 0 })] [] witOptionsEmpty).2 = [] :=
  ⟨rfl, rfl, rfl⟩

/-- C5 amended: an error from `ChangeCache.GetChanges` is returned
synchronously by the per-channel factory `vectorChangesFeed`; the entry
point `VectorMultiChangesFeed` itself always returns a nil error, and when
any feed fails to open the merge goroutine stops before emitting, so the
output stream closes with no entries. -/
theorem claim5_feed_error_sync (hash : VectorClock → String)
    (getChanges : String → ChangesOptions → Except String (List LogEntry))
    (user : Option UserInfo) (userVbNo : Nat)
    (channelsSince : List (String × VbSequence)) (addedChannels : List String)
    (options : ChangesOptions) :
    (vectorMultiChangesFeed hash getChanges user userVbNo channelsSince
        addedChannels options).1 = none ∧
    (∀ channel opts e, getChanges channel opts = .error e →
      vectorChangesFeedE getChanges channel opts = .error e) ∧
    (∀ e, buildFeeds getChanges options addedChannels userVbNo channelsSince =
        .error e →
      (vectorMultiChangesFeed hash getChanges user userVbNo channelsSince
        addedChannels options).2 = []) := by
  refine ⟨rfl, ?_, ?_⟩
  · intro channel opts e h2
    simp [vectorChangesFeedE, h2]
  · intro e h2
    simp [vectorMultiChangesFeed, h2]
/-- Witness for the amended C5 at the concrete failing stub. -/
theorem claim5_witness :
    vectorChangesFeedE cexGetChanges "A" witOptionsEmpty = Except.error "boom" ∧
    (vectorMultiChangesFeed witHash cexGetChanges none 0
      [("A", { vbNo := some 1, sequence := 0 })] [] witOptionsEmpty).2 = [] := by
  have h := claim5_feed_error_sync witHash cexGetChanges none 0
    [("A", { vbNo := some 1, sequence := 0 })] [] witOptionsEmpty
  exact ⟨h.2.1 "A" witOptionsEmpty "boom" rfl, h.2.2 "boom" rfl⟩

/-- C1: whenever the merge loop runs over per-channel feeds that are
strictly ascending under `Before` and carry unstamped clocks (as the
per-channel producers emit them), successive emitted entries `E1, E2`
satisfy `¬ E2.seq.Before E1.seq`, and no two emitted entries coincide on
their `SequenceID` identity fields — coinciding heads are coalesced into a
single emission. -/
theorem claim1_merge_output_ordered_coalesced
    (hash : VectorClock → String) (fuel limit : Nat) (st : MergeState)
    (hsort : ∀ f ∈ st.feeds, f.Pairwise (fun a b => a.seq.Before b.seq = true))
    (hclock : ∀ f ∈ st.feeds, ∀ e ∈ f, e.seq.clock = none) :
    (mergeOutput hash fuel limit st).Chain'
      (fun e1 e2 => e2.seq.Before e1.seq = false) ∧
    (mergeOutput hash fuel limit st).Pairwise
      (fun e1 e2 => ¬ e1.seq.sameID e2.seq) := by
  have h := @mergeOutput_pairwise hash fuel limit st hsort hclock
  exact ⟨List.Pairwise.chain' (h.imp fun hx => hx.1), h.imp fun hx => hx.2⟩
/-- Witness for C1: merging two concrete singleton live feeds. -/
theorem claim1_witness :
    ((∀ f ∈ witStateLive.feeds, f.Pairwise (fun a b => a.seq.Before b.seq = true)) ∧
      (∀ f ∈ witStateLive.feeds, ∀ e ∈ f, e.seq.clock = none)) ∧
    ((mergeOutput witHash 2 0 witStateLive).Chain'
        (fun e1 e2 => e2.seq.Before e1.seq = false) ∧
      (mergeOutput witHash 2 0 witStateLive).Pairwise
        (fun e1 e2 => ¬ e1.seq.sameID e2.seq)) :=
  ⟨⟨by decide, by decide⟩,
    claim1_merge_output_ordered_coalesced witHash 2 0 witStateLive
      (by decide) (by decide)⟩

/-- C7: in one merge step every current head whose `SequenceID` equals the
minimum entry's (full value equality, backfill fields included) is cleared —
the after-state's feeds are exactly `popIf minSeq` of the before-state's —
and the emitted entry's `Removed` set is the union of the removed sets of
all heads carrying that `SequenceID` (nil exactly when all of them are nil). -/
theorem claim7_coalesce_step (hash : VectorClock → String) (st : MergeState)
    (e : ChangeEntry) (st2 : MergeState) (m : Nat) (c : ChangeEntry)
    (hf : findMin (st.feeds.map List.head?) = some (m, c))
    (hstep : mergeStep hash st = some (e, st2)) :
    st2.feeds = st.feeds.map (popIf c.seq) ∧
    (∀ x : String, x ∈ e.removed.getD ∅ ↔
      ∃ f ∈ st.feeds, ∃ hd tl, f = hd :: tl ∧ hd.seq = c.seq ∧
        x ∈ hd.removed.getD ∅) ∧
    (e.removed = none ↔
      ∀ f ∈ st.feeds, ∀ hd tl, f = hd :: tl → hd.seq = c.seq →
        hd.removed = none) := by
  obtain ⟨m2, c2, hf2, hfeeds, _, hrem, _⟩ := mergeStep_spec hstep
  rw [hf, Option.some.injEq, Prod.ext_iff] at hf2
  obtain ⟨hm, hc⟩ := hf2
  subst hm
  subst hc
  have hmem := findMin_mem hf
  rw [List.getElem?_map] at hmem
  obtain ⟨fm, hfm, hheadm⟩ := Option.map_eq_some'.mp hmem
  obtain ⟨tlm, hfmeq⟩ : ∃ tlm, fm = c :: tlm := by
    match fm, hheadm with
    | [], hh => exact absurd hh (by simp)
    | hd :: tl, hh =>
      have hhc : hd = c := by simpa using hh
      exact ⟨tl, by rw [hhc]⟩
  subst hfmeq
  have hfm_mem : (c :: tlm) ∈ st.feeds := by
    rw [← List.get?_eq_getElem?] at hfm
    exact List.get?_mem hfm
  refine ⟨hfeeds, ?_, ?_⟩
  · intro x
    rw [hrem, coalesceGo_removed_mem st.feeds 0 m c.seq c x]
    constructor
    · rintro (hx | ⟨j, cur, tl, hj, hseq, _, hx⟩)
      · exact ⟨c :: tlm, hfm_mem, c, tlm, rfl, rfl, hx⟩
      · rw [← List.get?_eq_getElem?] at hj
        exact ⟨cur :: tl, List.get?_mem hj, cur, tl, rfl, hseq, hx⟩
    · rintro ⟨f, hfmem, hd, tl, hfeq, hseq, hx⟩
      subst hfeq
      obtain ⟨j, hj⟩ := List.mem_iff_get?.mp hfmem
      by_cases hjm : j = m
      · subst hjm
        rw [List.get?_eq_getElem?, hfm] at hj
        have : hd = c := by
          have := (Option.some.injEq _ _).mp hj
          exact ((List.cons.injEq .. ▸ this).1).symm
        exact Or.inl (this ▸ hx)
      · rw [List.get?_eq_getElem?] at hj
        exact Or.inr ⟨j, hd, tl, hj, hseq, by omega, hx⟩
  · rw [hrem, coalesceGo_removed_none st.feeds 0 m c.seq c]
    constructor
    · rintro ⟨hcnone, hall⟩ f hfmem hd tl hfeq hseq
      subst hfeq
      obtain ⟨j, hj⟩ := List.mem_iff_get?.mp hfmem
      by_cases hjm : j = m
      · subst hjm
        rw [List.get?_eq_getElem?, hfm] at hj
        have : hd = c := by
          have := (Option.some.injEq _ _).mp hj
          exact ((List.cons.injEq .. ▸ this).1).symm
        exact this ▸ hcnone
      · rw [List.get?_eq_getElem?] at hj
        exact hall j hd tl hj hseq (by omega)
    · intro hall
      refine ⟨hall _ hfm_mem c tlm rfl rfl, ?_⟩
      intro j hd tl hj hseq _
      rw [← List.get?_eq_getElem?] at hj
      exact hall _ (List.get?_mem hj) hd tl rfl hseq
/-- Witness for C7: a concrete step coalescing two heads at the same
sequence, unioning the removed set of the duplicate into the emission. -/
theorem claim7_witness :
    witStateDup.feeds.map (popIf witLive1.seq) = [[], []] ∧
    (∀ x : String, x ∈ (some ({"B"} : Finset String)).getD ∅ ↔
      ∃ f ∈ witStateDup.feeds, ∃ hd tl, f = hd :: tl ∧ hd.seq = witLive1.seq ∧
        x ∈ hd.removed.getD ∅) := by
  have h := claim7_coalesce_step witHash witStateDup
    { id := "x",
      seq := { seq := 5, vbNo := 1, clock := some (VectorClock.hashOnly "h"),
               triggeredBy := 0, triggeredByVbNo := 0, triggeredByClock := none },
      removed := some {"B"}, err := none }
    { feeds := [[], []], cc := ⟨[(1, 5)], ""⟩, tbcHash := [] }
    0 witLive1 (by decide) (by decide)
  exact ⟨h.1, h.2.1⟩

/-- C8: with a positive limit the merge loop decrements it after each
emission and stops on zero, so the number of entries emitted equals
`min limit totalAvailable`, where `totalAvailable` is what the unlimited
run would emit. -/
theorem claim8_limit_min (hash : VectorClock → String) (fuel : Nat)
    (st : MergeState) (limit : Nat) (hpos : 0 < limit) :
    (mergeOutput hash fuel limit st).length =
      min limit (mergeOutput hash fuel 0 st).length := by
  rw [mergeOutput_limit_take hash fuel st limit hpos]
  exact List.length_take _ _
/-- Witness for C8 with limit 1 over two available entries. -/
theorem claim8_witness :
    (mergeOutput witHash 2 1 witStateLive).length =
      min 1 (mergeOutput witHash 2 0 witStateLive).length :=
  claim8_limit_min witHash 2 witStateLive 1 (by decide)

/-- C4: clock stamping.  For every emitted live entry the merger first
advances the cumulative clock with `setMax(vbNo, seq)` and replaces the
entry's clock with one carrying only the hash of the advanced cumulative
clock, leaving flight hashes untouched; for every emitted backfill entry, if
and only if the flight's shared triggered-by clock is still unhashed the
merger performs `setMax(triggeredByVbNo, triggeredBy)` and stamps the hash
onto the shared clock, and otherwise advances nothing.  Over a whole run
starting with no stamped flights, each flight is stamped exactly once — at
its first emitted backfill entry — and never again. -/
theorem claim4_clock_stamping (hash : VectorClock → String)
    (fuel limit : Nat) (st : MergeState)
    (hh : ∀ cl, hash cl ≠ "") (hinit : st.tbcHash = []) :
    (∀ t ∈ mergeTrace hash fuel limit st,
      (t.2.1.seq.triggeredBy = 0 →
        t.2.2.cc = t.1.cc.setMax t.2.1.seq.vbNo t.2.1.seq.seq ∧
        t.2.1.seq.clock = some (VectorClock.hashOnly (hash t.2.2.cc)) ∧
        t.2.2.tbcHash = t.1.tbcHash) ∧
      (t.2.1.seq.triggeredBy ≠ 0 →
        (lookupFlight t.1.tbcHash (flightKey t.2.1) = "" →
          t.2.2.cc = t.1.cc.setMax t.2.1.seq.triggeredByVbNo t.2.1.seq.triggeredBy ∧
          lookupFlight t.2.2.tbcHash (flightKey t.2.1) = hash t.2.2.cc) ∧
        (lookupFlight t.1.tbcHash (flightKey t.2.1) ≠ "" →
          t.2.2.cc = t.1.cc ∧ t.2.2.tbcHash = t.1.tbcHash))) ∧
    (∀ k : Nat × Nat,
      (mergeTrace hash fuel limit st).countP (stampEvent k) =
        if ∃ t ∈ mergeTrace hash fuel limit st,
            t.2.1.seq.triggeredBy ≠ 0 ∧ flightKey t.2.1 = k
        then 1 else 0) := by
  constructor
  · intro t ht
    have hstep := mergeTrace_step fuel limit st t ht
    obtain ⟨m, c, _, _, _, _, _, _, _, _, _, hbr⟩ := mergeStep_spec hstep
    constructor
    · intro h0
      rcases hbr with ⟨_, hcc, hclk, htbc⟩ | ⟨hne, _⟩
      · exact ⟨hcc, hclk, htbc⟩
      · exact absurd h0 hne
    · intro h0
      constructor
      · intro hl
        exact mergeStep_stamped_lookup hstep h0 hl
      · intro hl
        rcases hbr with ⟨h00, _⟩ | ⟨_, _, ⟨hl2, _, _⟩ | ⟨_, hcc, htbc⟩⟩
        · exact absurd h00 h0
        · exact absurd hl2 hl
        · exact ⟨hcc, htbc⟩
  · intro k
    by_cases hex : ∃ t ∈ mergeTrace hash fuel limit st,
        t.2.1.seq.triggeredBy ≠ 0 ∧ flightKey t.2.1 = k
    · rw [if_pos hex]
      have hle := mergeTrace_countStamp_le_one hh fuel limit st k
      have hge := mergeTrace_countStamp_pos fuel limit st k
        (by rw [hinit]; rfl) hex
      omega
    · rw [if_neg hex]
      refine List.countP_eq_zero.mpr ?_
      intro t ht hc
      rw [stampEvent, decide_eq_true_eq] at hc
      exact hex ⟨t, ht, hc.1, hc.2.1⟩
/-- Witness for C4: a single-flight backfill run from an empty flight
table. -/
theorem claim4_witness :
    (∀ t ∈ mergeTrace witHash 1 0 witStateBack,
      (t.2.1.seq.triggeredBy = 0 →
        t.2.2.cc = t.1.cc.setMax t.2.1.seq.vbNo t.2.1.seq.seq ∧
        t.2.1.seq.clock = some (VectorClock.hashOnly (witHash t.2.2.cc)) ∧
        t.2.2.tbcHash = t.1.tbcHash) ∧
      (t.2.1.seq.triggeredBy ≠ 0 →
        (lookupFlight t.1.tbcHash (flightKey t.2.1) = "" →
          t.2.2.cc = t.1.cc.setMax t.2.1.seq.triggeredByVbNo t.2.1.seq.triggeredBy ∧
          lookupFlight t.2.2.tbcHash (flightKey t.2.1) = witHash t.2.2.cc) ∧
        (lookupFlight t.1.tbcHash (flightKey t.2.1) ≠ "" →
          t.2.2.cc = t.1.cc ∧ t.2.2.tbcHash = t.1.tbcHash))) ∧
    (∀ k : Nat × Nat,
      (mergeTrace witHash 1 0 witStateBack).countP (stampEvent k) =
        if ∃ t ∈ mergeTrace witHash 1 0 witStateBack,
            t.2.1.seq.triggeredBy ≠ 0 ∧ flightKey t.2.1 = k
        then 1 else 0) :=
  claim4_clock_stamping witHash 1 0 witStateBack
    (fun cl => by simp [witHash]) rfl

end SyncGateway
